import Mathlib

/-!
Verification of the unirbac-js core authorization engine
(`packages/core/src`): the hierarchical permission matcher
(`Permission.match`), the role registry with cycle-safe inheritance
resolution (`RBACEngine.getPermissions`), the policy registry, and the
`can` decision pipeline.  Every definition below is a shallow embedding
translated from the TypeScript source.
-/

namespace UniRBAC

/-- JavaScript `String.prototype.split` with the single-character separator
`':'`, on the underlying character list: splitting the empty string yields
`[[]]`, and a trailing separator yields a trailing empty segment. -/
def splitColonChars : List Char → List (List Char)
  | [] => [[]]
  | c :: cs =>
    if c = ':' then [] :: splitColonChars cs
    else
      match splitColonChars cs with
      | [] => [[c]]
      | seg :: rest => (c :: seg) :: rest

/-- `s.split(':')` as used by the matcher (segments as Lean strings). -/
def splitColon (s : String) : List String :=
  (splitColonChars s.toList).map fun cs => String.mk cs

/-- The permission matcher, from `src/packages/core/src/permissions/index.ts`.

The source loop walks the pattern segments by index `i`; `permissionParts[i]`
is `undefined` past the end of the permission, and the `if (!permissionPart)`
guard treats `undefined` and the empty string alike.  The final statement
returns `permissionParts.length === patternParts.length`; since that
comparison is between the lengths of the original, unconsumed arrays, the
recursion below carries it as the precomputed flag `lenEq`. -/
def matchLoop : List String → List String → Bool → Bool
  | [], _, lenEq => lenEq
  | p :: ps, qs, lenEq =>
    if p = "**" then true
    else if p = "*" then matchLoop ps qs.tail lenEq
    else
      match qs with
      | [] => false
      | q :: qs' => if q = "" then false else if p ≠ q then false else matchLoop ps qs' lenEq

/-- `Permission.match` from `src/packages/core/src/permissions/index.ts`.
`pattern.split(':')` in JavaScript always returns a non-empty (hence truthy)
array, so the `|| pattern.split('.')` alternative in the source never
executes: both strings are always split on `':'`. -/
def Permission.matches (pattern permission : String) : Bool :=
  if pattern = permission then true
  else
    let patternParts := splitColon pattern
    let permissionParts := splitColon permission
    matchLoop patternParts permissionParts (permissionParts.length == patternParts.length)

/-! ## Data model (`src/packages/core/src/types`) -/

/-- `Role` from `types/role.d.ts`.  `level` and `denies` are carried but not
read by the decision pipeline. -/
structure Role where
  name : String
  level : Int
  permissions : List String
  inherits : List String := []
  denies : List String := []
  deriving Repr, DecidableEq

/-- `Subject` from `types/subject.d.ts`; `attributes` values are opaque to
the engine and only read by policy predicates, so they are modelled as
strings. -/
structure Subject where
  id : String
  roles : List String
  permissions : List String := []
  attributes : List (String × String) := []
  deriving Repr, DecidableEq

/-- `AuthorizationContext = Record<string, unknown>`: opaque to the core. -/
abbrev AuthorizationContext := List (String × String)

/-- The argument object `{ subject, context }` passed to a policy. -/
structure PolicyArgs where
  subject : Subject
  context : AuthorizationContext

/-- A policy predicate whose evaluation completes with a boolean. -/
abbrev PolicyFn := PolicyArgs → Bool

/-- A policy predicate whose evaluation may also throw / reject
(`boolean | Promise<boolean>` where the promise may reject):
`.error` is a thrown exception or rejected promise. -/
abbrev PolicyFnE := PolicyArgs → Except String Bool

/-- `Authorization` from `RBACEngine.ts`. -/
structure Authorization where
  allowed : Bool
  reason : Option String := none
  permission : String
  deriving Repr, DecidableEq

/-! ## JavaScript `Map` and `Set` semantics

`Map` is modelled as an association list: `set` replaces in place (last
write wins for the key), `get` looks up by key.  A `Set<string>` is a
duplicate-free list in insertion order: `add` appends only when absent. -/

def mapGet {α : Type} : List (String × α) → String → Option α
  | [], _ => none
  | (k', v) :: rest, k => if k' = k then some v else mapGet rest k

def mapSet {α : Type} : List (String × α) → String → α → List (String × α)
  | [], k, v => [(k, v)]
  | (k', v') :: rest, k, v =>
    if k' = k then (k, v) :: rest else (k', v') :: mapSet rest k v

/-- `Set.prototype.add`. -/
def addToSet (s : List String) (x : String) : List String :=
  if x ∈ s then s else s ++ [x]

/-- `xs.forEach(x => s.add(x))` (also `new Set(xs)` when `s = []`). -/
def addAll (s : List String) (xs : List String) : List String :=
  xs.foldl addToSet s

/-- The role registry `this.roles : Map<string, Role>`. -/
abbrev Registry := List (String × Role)

/-! ## Role resolution (`RBACEngine.getPermissions`)

The source is a recursive closure `visited` over two mutable sets,
driven by `subject.roles.forEach(visited)`.  It is embedded as one
worklist function: the head of the worklist is the role currently being
visited, and recursing into `role.inherits` before the remaining worklist
reproduces the depth-first order of the source.  The JavaScript recursion
has no fuel; the `fuel` argument is an artifact of the embedding, and
`visitRoles_total` below shows `engineFuel` is always enough, which is
exactly the termination of the source recursion. -/

/-- State: (`visitedRoles`, `prms`), both in insertion order. -/
abbrev ResolveSt := List String × List String

/-- The closure `visited(roleName)` from `getPermissions`: mark the name
visited, and when it is registered, union the role's permissions and recurse
into its `inherits` (`forEach` rendered as a fold). -/
def visitRole (reg : Registry) : Nat → String → ResolveSt → Option ResolveSt
  | 0, _, _ => none
  | fuel + 1, n, st =>
    if n ∈ st.1 then some st
    else
      match mapGet reg n with
      | none => some (st.1 ++ [n], st.2)
      | some r =>
        r.inherits.foldl (fun acc parentName => acc.bind (visitRole reg fuel parentName))
          (some (st.1 ++ [n], addAll st.2 r.permissions))

/-- `roleNames.forEach(roleName => visited(roleName))`. -/
def visitList (reg : Registry) (fuel : Nat) (ns : List String) (st : ResolveSt) :
    Option ResolveSt :=
  ns.foldl (fun acc n => acc.bind (visitRole reg fuel n)) (some st)

/-- Every role name the traversal can ever encounter: the initial names
plus the `inherits` lists of all registered roles. -/
def roleUniverse (reg : Registry) (starts : List String) : List String :=
  starts ++ (reg.map fun kv => kv.2.inherits).flatten

/-- Enough fuel for `visitRole`/`visitList` on any input: the nesting depth
of the source recursion is bounded by the number of distinct names it can
visit. -/
def engineFuel (reg : Registry) (starts : List String) : Nat :=
  (roleUniverse reg starts).length + 1

/-- `RBACEngine.getPermissions(subject)`: `new Set(subject.permissions)`,
then the visited-set traversal over `subject.roles`. -/
def getPermissionsList (reg : Registry) (s : Subject) : List String :=
  match visitList reg (engineFuel reg s.roles) s.roles ([], addAll [] s.permissions) with
  | some st => st.2
  | none => []

/-! ## The engine (`RBACEngine.ts`) -/

/-- The engine's two registries; `can` below is `RBACEngine.can` with the
state made explicit. -/
structure RBACEngine where
  roles : Registry := []
  policies : List (String × PolicyFn) := []

/-- `addRole(role)`: `this.roles.set(role.name, role)`. -/
def addRole (e : RBACEngine) (role : Role) : RBACEngine :=
  { e with roles := mapSet e.roles role.name role }

/-- `addPolicy(permission, policyCallback)`. -/
def addPolicy (e : RBACEngine) (permission : String) (policyCallback : PolicyFn) : RBACEngine :=
  { e with policies := mapSet e.policies permission policyCallback }

def notFoundReason : String := "Permission not found in subject roles/permissions"

def deniedReason : String := "Access denied by policy"

/-- `RBACEngine.can(subject, permission, context)`, for predicates whose
evaluation completes with a boolean (the throwing/rejecting case is
`canE`). -/
def can (e : RBACEngine) (subject : Subject) (permission : String)
    (context : AuthorizationContext := []) : Authorization :=
  let permissions := getPermissionsList e.roles subject
  let matchedPermission := permissions.any fun perm => Permission.matches perm permission
  if !matchedPermission then
    { allowed := false, reason := some notFoundReason, permission := permission }
  else
    match mapGet e.policies permission with
    | some policy =>
      if policy ⟨subject, context⟩ then
        { allowed := true, permission := permission }
      else
        { allowed := false, reason := some deniedReason, permission := permission }
    | none => { allowed := true, permission := permission }

/-- The engine with predicates that may throw/reject. -/
structure RBACEngineE where
  roles : Registry := []
  policies : List (String × PolicyFnE) := []

/-- `RBACEngine.can` where `await policy({subject, context})` may throw or
reject: the failure propagates out of `can` (the surrounding `async`
function rejects), which the `Except` threading renders exactly. -/
def canE (e : RBACEngineE) (subject : Subject) (permission : String)
    (context : AuthorizationContext := []) : Except String Authorization :=
  let permissions := getPermissionsList e.roles subject
  let matchedPermission := permissions.any fun perm => Permission.matches perm permission
  if !matchedPermission then
    .ok { allowed := false, reason := some notFoundReason, permission := permission }
  else
    match mapGet e.policies permission with
    | some policy =>
      match policy ⟨subject, context⟩ with
      | .error err => .error err
      | .ok b =>
        if b then .ok { allowed := true, permission := permission }
        else .ok { allowed := false, reason := some deniedReason, permission := permission }
    | none => .ok { allowed := true, permission := permission }

/-! ## The earlier alternate resolver (`resolvePermissions`/`resolveRoles`)

From the alternate `RBACEngine` version: `resolveRoles` performs the same
visited-set traversal but collects the role records (each pushed after its
`inherits` have been visited), sorts them by `level` descending
(`.sort((a, b) => b.level - a.level)`), and `resolvePermissions` unions
their permission lists, re-adding `subject.permissions` at the end. -/

/-- The closure `visit(name)` from `resolveRoles`: mark visited, return if
unregistered, recurse into `inherits`, then `roles.push(role)`. -/
def visitRoleAlt (reg : Registry) :
    Nat → String → List String × List Role → Option (List String × List Role)
  | 0, _, _ => none
  | fuel + 1, n, st =>
    if n ∈ st.1 then some st
    else
      match mapGet reg n with
      | none => some (st.1 ++ [n], st.2)
      | some r =>
        (r.inherits.foldl (fun acc parentName => acc.bind (visitRoleAlt reg fuel parentName))
            (some (st.1 ++ [n], st.2))).map
          fun st' => (st'.1, st'.2 ++ [r])

/-- `roleNames.forEach(visit)` of the alternate version. -/
def visitListAlt (reg : Registry) (fuel : Nat) (ns : List String)
    (st : List String × List Role) : Option (List String × List Role) :=
  ns.foldl (fun acc n => acc.bind (visitRoleAlt reg fuel n)) (some st)

/-- One insertion step of the stable sort modelling
`roles.sort((a, b) => b.level - a.level)` (descending by `level`). -/
def insertByLevel (r : Role) : List Role → List Role
  | [] => [r]
  | x :: xs => if x.level < r.level then r :: x :: xs else x :: insertByLevel r xs

/-- `roles.sort((a, b) => b.level - a.level)`: a stable comparison sort; only
the fact that it permutes its input matters to the decision. -/
def sortByLevelDesc (rs : List Role) : List Role :=
  rs.foldr insertByLevel []

/-- `resolveRoles(roleNames)` (alternate version). -/
def resolveRoles (reg : Registry) (roleNames : List String) : Option (List Role) :=
  match visitListAlt reg (engineFuel reg roleNames) roleNames ([], []) with
  | some st => some (sortByLevelDesc st.2)
  | none => none

/-- `resolvePermissions(subject)` (alternate version). -/
def resolvePermissionsList (reg : Registry) (s : Subject) : List String :=
  match resolveRoles reg s.roles with
  | none => []
  | some rs =>
    let prms := rs.foldl (fun acc r => addAll acc r.permissions) (addAll [] s.permissions)
    addAll prms s.permissions

/-- `can` of the alternate engine version (identical except that it calls
`resolvePermissions`). -/
def canAlt (e : RBACEngine) (subject : Subject) (permission : String)
    (context : AuthorizationContext := []) : Authorization :=
  let permissions := resolvePermissionsList e.roles subject
  let matchedPermission := permissions.any fun perm => Permission.matches perm permission
  if !matchedPermission then
    { allowed := false, reason := some notFoundReason, permission := permission }
  else
    match mapGet e.policies permission with
    | some policy =>
      if policy ⟨subject, context⟩ then
        { allowed := true, permission := permission }
      else
        { allowed := false, reason := some deniedReason, permission := permission }
    | none => { allowed := true, permission := permission }

/-! ## Fuel accounting

`unvisited U v` counts the occurrences in `U` of names not yet in `v`; it is
the measure that shrinks every time the traversal marks a new name. -/

def unvisited : List String → List String → Nat
  | [], _ => 0
  | u :: us, v => (if u ∈ v then 0 else 1) + unvisited us v
/-- Reachability along `inherits` edges of registered roles: the role names
the source traversal can reach from a starting name. -/
inductive Reach (reg : Registry) : String → String → Prop
  | refl (n : String) : Reach reg n n
  | tail {a b c : String} {r : Role} :
      Reach reg a b → mapGet reg b = some r → c ∈ r.inherits → Reach reg a c
/-- Two roles carrying the same permissions and parents as sets. -/
def roleEquivalent (r r' : Role) : Prop :=
  (∀ m, m ∈ r.inherits ↔ m ∈ r'.inherits) ∧
    (∀ x, x ∈ r.permissions ↔ x ∈ r'.permissions)

/-- Two registries registering the same names, with equivalent roles: in
particular a registry in which some role's `inherits` entries have been
duplicated or reordered. -/
def RegEquiv (reg reg' : Registry) : Prop :=
  ∀ k, (mapGet reg k = none ∧ mapGet reg' k = none) ∨
    ∃ r r', mapGet reg k = some r ∧ mapGet reg' k = some r' ∧ roleEquivalent r r'
/-! ## `can` with the registry state threaded explicitly

The source methods hold `this.roles` and `this.policies` in mutable fields.
To state that a decision writes nothing, every registry access below is a
state transformer: `mapGetS` is `Map.prototype.get` (it returns the value
and the untouched map), and `canS` is `can` with the engine state passed
along every access.  `canS_eq` then records that the final state is the
initial one. -/

def mapGetS {α : Type} (m : List (String × α)) (k : String) :
    Option α × List (String × α) :=
  (mapGet m k, m)

def visitRoleS : Nat → String → ResolveSt → Registry → Option (ResolveSt × Registry)
  | 0, _, _, _ => none
  | fuel + 1, n, st, rs =>
    if n ∈ st.1 then some (st, rs)
    else
      match mapGetS rs n with
      | (none, rs1) => some ((st.1 ++ [n], st.2), rs1)
      | (some r, rs1) =>
        r.inherits.foldl
          (fun acc parentName => acc.bind fun pr => visitRoleS fuel parentName pr.1 pr.2)
          (some ((st.1 ++ [n], addAll st.2 r.permissions), rs1))

def visitListS (fuel : Nat) (ns : List String) (st : ResolveSt) (rs : Registry) :
    Option (ResolveSt × Registry) :=
  ns.foldl (fun acc n => acc.bind fun pr => visitRoleS fuel n pr.1 pr.2) (some (st, rs))

def getPermissionsListS (reg : Registry) (s : Subject) : List String × Registry :=
  match visitListS (engineFuel reg s.roles) s.roles ([], addAll [] s.permissions) reg with
  | some (st, reg') => (st.2, reg')
  | none => ([], reg)

def canS (e : RBACEngine) (subject : Subject) (permission : String)
    (context : AuthorizationContext := []) : Authorization × RBACEngine :=
  let pr := getPermissionsListS e.roles subject
  let permissions := pr.1
  let e1 : RBACEngine := { roles := pr.2, policies := e.policies }
  let matchedPermission := permissions.any fun perm => Permission.matches perm permission
  if !matchedPermission then
    ({ allowed := false, reason := some notFoundReason, permission := permission }, e1)
  else
    let pg := mapGetS e1.policies permission
    let e2 : RBACEngine := { roles := e1.roles, policies := pg.2 }
    match pg.1 with
    | some policy =>
      if policy ⟨subject, context⟩ then
        ({ allowed := true, permission := permission }, e2)
      else
        ({ allowed := false, reason := some deniedReason, permission := permission }, e2)
    | none => ({ allowed := true, permission := permission }, e2)
/-! ## Segment-level characterizations of the matcher

`specClaimed` renders the specification's stated grammar (§4.1/§8): `**`
ends the comparison successfully, `*` consumes exactly one segment (of any
content), a literal segment — the empty literal included — must equal the
corresponding permission segment, and segment counts must agree exactly when
no `**` is present.  `specAmended` is the grammar the code actually
implements: a literal comparison additionally requires the permission
segment to be non-empty, and a `*` with no remaining permission segment
still continues (so a later `**` still fires), with the segment-count check
deferred to the end. -/

def specClaimed : List String → List String → Bool
  | [], qs => qs.isEmpty
  | p :: ps, qs =>
    if p = "**" then true
    else if p = "*" then
      match qs with
      | [] => false
      | _ :: qs' => specClaimed ps qs'
    else
      match qs with
      | [] => false
      | q :: qs' => if p = q then specClaimed ps qs' else false

/-- After the permission is exhausted, the pattern remainder succeeds iff it
reaches a `**` through (possibly zero) `*` segments. -/
def starTail : List String → Bool
  | [] => false
  | p :: ps => if p = "**" then true else if p = "*" then starTail ps else false

def specAmended : List String → List String → Bool
  | [], qs => qs.isEmpty
  | p :: ps, qs =>
    if p = "**" then true
    else if p = "*" then
      match qs with
      | [] => starTail ps
      | _ :: qs' => specAmended ps qs'
    else
      match qs with
      | [] => false
      | q :: qs' => if q = "" then false else if p = q then specAmended ps qs' else false

/-! ## Concrete registries, subjects and policies used by the closed
instances below -/

def cycleRoleA : Role :=
  { name := "roleA", level := 10, permissions := ["perm:a"], inherits := ["roleB"] }

def cycleRoleB : Role :=
  { name := "roleB", level := 10, permissions := ["perm:b"], inherits := ["roleA"] }

def cycleRegistry : Registry := [("roleA", cycleRoleA), ("roleB", cycleRoleB)]

def cycleSubject : Subject := { id := "1", roles := ["roleA"] }
def ghostRegistry : Registry :=
  [("real", { name := "real", level := 1, permissions := ["a:b"] })]

def ghostSubject : Subject := { id := "g", roles := ["ghost1", "ghost2"] }

/-- The registry with every unregistered name removed from every role's
`inherits` list; the role records are otherwise unchanged.  Resolution being
invariant under this pruning says exactly that unregistered `inherits`
entries contribute no permissions and do not prevent the entries after them
from being resolved. -/
def filterInheritsReg (reg : Registry) : Registry :=
  reg.map fun kv =>
    (kv.1, { kv.2 with inherits := kv.2.inherits.filter fun n => (mapGet reg n).isSome })

def ghostInheritsRegistry : Registry :=
  [("top", { name := "top", level := 1, permissions := ["t:p"],
             inherits := ["ghost", "bottom"] }),
   ("bottom", { name := "bottom", level := 1, permissions := ["b:p"] })]

def ghostInheritsSubject : Subject := { id := "g", roles := ["top"] }
def failingPolicy : PolicyFnE := fun _ => .error "boom"

def w7Engine : RBACEngineE :=
  { roles := [("user", { name := "user", level := 1, permissions := ["post:edit"] })],
    policies := [("post:edit", failingPolicy)] }

def w7Subject : Subject := { id := "u", roles := ["user"] }
def orderPolicy : PolicyFn := fun args => args.subject.roles == ["a", "b"]

def orderEngine : RBACEngine :=
  { roles := [("a", { name := "a", level := 0, permissions := ["p"] })],
    policies := [("p", orderPolicy)] }

def orderSubject1 : Subject := { id := "u", roles := ["a", "b"] }

def orderSubject2 : Subject := { id := "u", roles := ["b", "a"] }
def dupRegistry1 : Registry :=
  [("a", { name := "a", level := 0, permissions := ["p"], inherits := ["x"] })]

def dupRegistry2 : Registry :=
  [("a", { name := "a", level := 0, permissions := ["p"], inherits := ["x", "x"] })]

def dupSubject1 : Subject := { id := "u", roles := ["a"] }

def dupSubject2 : Subject := { id := "u", roles := ["a", "a"] }
def w1Role : Role := { name := "user", level := 10, permissions := ["post:edit"] }

def w1Policy : PolicyFn := fun args =>
  args.context.any fun kv => kv.1 == "authorId" && kv.2 == args.subject.id

def w1Engine : RBACEngine := addPolicy (addRole {} w1Role) "post:edit" w1Policy

def w1Subject : Subject := { id := "u1", roles := ["user"] }

/-! ## Behaviour on the repository test-suite inputs -/

example : Permission.matches "user:read" "user:read" = true := by decide
example : Permission.matches "user:read" "user:write" = false := by decide
example : Permission.matches "user:read" "user:read:all" = false := by decide
example : Permission.matches "user:*" "user:read" = true := by decide
example : Permission.matches "user:*:view" "user:profile:view" = true := by decide
example : Permission.matches "*:read" "post:read" = true := by decide
example : Permission.matches "user:*" "post:read" = false := by decide
example : Permission.matches "user:*" "user:read:all" = false := by decide
example : Permission.matches "user:**" "user:profile:settings:view" = true := by decide
example : Permission.matches "**" "anything:at:all" = true := by decide
example : Permission.matches "admin:**" "admin" = true := by decide
example : Permission.matches "user:" "user:" = true := by decide
example : Permission.matches "admin" "admin" = true := by decide
example : Permission.matches "admin" "user" = false := by decide
example : Permission.matches "User:Read" "user:read" = false := by decide
example : Permission.matches "user.read" "user.read" = true := by decide
example : Permission.matches "user:read:all" "user:read" = false := by decide
example : Permission.matches "a:b:c:d" "a:b" = false := by decide
example : Permission.matches "user:*:details" "user:profile" = false := by decide


/-! ## Helper lemmas: JavaScript `Set`/`Map` semantics -/

theorem mem_addToSet {s : List String} {x y : String} :
    x ∈ addToSet s y ↔ x ∈ s ∨ x = y := by
  unfold addToSet
  split
  · rename_i hy
    constructor
    · exact Or.inl
    · rintro (h | rfl)
      · exact h
      · exact hy
  · simp

theorem subset_addToSet {s : List String} {y : String} : s ⊆ addToSet s y := by
  intro x hx
  exact mem_addToSet.mpr (Or.inl hx)

theorem nodup_addToSet {s : List String} {y : String} (h : s.Nodup) :
    (addToSet s y).Nodup := by
  unfold addToSet
  split
  · exact h
  · rename_i hy
    simpa [List.nodup_append] using ⟨h, hy⟩

theorem mem_addAll {xs : List String} :
    ∀ {s x}, x ∈ addAll s xs ↔ x ∈ s ∨ x ∈ xs := by
  induction xs with
  | nil => simp [addAll]
  | cons y ys ih =>
    intro s x
    show x ∈ addAll (addToSet s y) ys ↔ _
    rw [ih, mem_addToSet]
    constructor
    · rintro ((h | rfl) | h)
      · exact Or.inl h
      · simp
      · simp [h]
    · rintro (h | h)
      · exact Or.inl (Or.inl h)
      · rcases List.mem_cons.mp h with rfl | h
        · exact Or.inl (Or.inr rfl)
        · exact Or.inr h

theorem subset_addAll {s : List String} {xs : List String} : s ⊆ addAll s xs :=
  fun _ hx => mem_addAll.mpr (Or.inl hx)

theorem nodup_addAll {xs : List String} :
    ∀ {s}, s.Nodup → (addAll s xs).Nodup := by
  induction xs with
  | nil => intro s h; exact h
  | cons y ys ih => intro s h; exact ih (nodup_addToSet h)

theorem mapGet_mem {α : Type} {m : List (String × α)} {k : String} {v : α}
    (h : mapGet m k = some v) : (k, v) ∈ m := by
  induction m with
  | nil => simp [mapGet] at h
  | cons kv rest ih =>
    rw [mapGet] at h
    split at h
    · rename_i heq
      cases Option.some.inj h
      simp [← heq]
    · exact List.mem_cons_of_mem _ (ih h)

theorem mem_insertByLevel {r x : Role} : ∀ {rs : List Role},
    x ∈ insertByLevel r rs ↔ x = r ∨ x ∈ rs := by
  intro rs
  induction rs with
  | nil => simp [insertByLevel]
  | cons y ys ih =>
    rw [insertByLevel]
    split
    · simp
    · rw [List.mem_cons, ih]
      constructor
      · rintro (rfl | h | h) <;> simp [*]
      · rintro (rfl | h)
        · simp
        · rcases List.mem_cons.mp h with rfl | h <;> simp [*]

theorem mem_sortByLevelDesc {x : Role} : ∀ {rs : List Role},
    x ∈ sortByLevelDesc rs ↔ x ∈ rs := by
  intro rs
  induction rs with
  | nil => simp [sortByLevelDesc]
  | cons y ys ih =>
    show x ∈ insertByLevel y (sortByLevelDesc ys) ↔ _
    rw [mem_insertByLevel, ih]
    simp [eq_comm]

theorem mem_foldl_addAllPerms {x : String} : ∀ {rs : List Role} {acc : List String},
    x ∈ rs.foldl (fun acc r => addAll acc r.permissions) acc ↔
      x ∈ acc ∨ ∃ ρ ∈ rs, x ∈ ρ.permissions := by
  intro rs
  induction rs with
  | nil => simp
  | cons r rs ih =>
    intro acc
    rw [List.foldl_cons, ih]
    rw [mem_addAll]
    constructor
    · rintro ((h | h) | ⟨ρ, hρ, hx⟩)
      · exact Or.inl h
      · exact Or.inr ⟨r, by simp, h⟩
      · exact Or.inr ⟨ρ, by simp [hρ], hx⟩
    · rintro (h | ⟨ρ, hρ, hx⟩)
      · exact Or.inl (Or.inl h)
      · rcases List.mem_cons.mp hρ with rfl | hρ
        · exact Or.inl (Or.inr hx)
        · exact Or.inr ⟨ρ, hρ, hx⟩

theorem unvisited_le {U : List String} : ∀ {v}, unvisited U v ≤ U.length := by
  induction U with
  | nil => intro v; simp [unvisited]
  | cons u us ih =>
    intro v
    rw [unvisited, List.length_cons]
    have h : (if u ∈ v then 0 else 1) ≤ 1 := by split <;> simp
    have := @ih v
    omega

theorem unvisited_anti {U : List String} : ∀ {v v'}, v ⊆ v' →
    unvisited U v' ≤ unvisited U v := by
  induction U with
  | nil => intro v v' _; simp [unvisited]
  | cons u us ih =>
    intro v v' hsub
    rw [unvisited, unvisited]
    have h1 : (if u ∈ v' then 0 else 1) ≤ (if u ∈ v then 0 else 1) := by
      by_cases hu : u ∈ v
      · simp [hu, hsub hu]
      · split <;> simp
    have h2 := ih hsub
    omega

theorem unvisited_append_lt {n : String} {U : List String} :
    ∀ {v}, n ∈ U → n ∉ v → unvisited U (v ++ [n]) < unvisited U v := by
  induction U with
  | nil => intro v h; simp at h
  | cons u us ih =>
    intro v hU hv
    rw [unvisited, unvisited]
    rcases List.mem_cons.mp hU with rfl | hus
    · have hmem : n ∈ v ++ [n] := by simp
      have h2 : unvisited us (v ++ [n]) ≤ unvisited us v :=
        unvisited_anti (by intro a ha; simp [ha])
      simp [hmem, hv]
      omega
    · have h1 : (if u ∈ v ++ [n] then 0 else 1) ≤ (if u ∈ v then 0 else 1) := by
        by_cases hu : u ∈ v
        · simp [hu]
        · split <;> simp
      have h2 := ih hus hv
      omega

theorem unvisited_pos {n : String} {U v : List String} (hU : n ∈ U) (hv : n ∉ v) :
    1 ≤ unvisited U v := by
  induction U with
  | nil => simp at hU
  | cons u us ih =>
    rw [unvisited]
    rcases List.mem_cons.mp hU with rfl | hus
    · simp [hv]
    · have := ih hus
      omega

/-! ## Generic lemmas about the `forEach` folds -/

theorem foldl_bind_none {σ : Type} (f : String → σ → Option σ) :
    ∀ ns : List String, ns.foldl (fun acc n => acc.bind (f n)) none = none := by
  intro ns
  induction ns with
  | nil => rfl
  | cons n ns ih => simpa using ih

theorem foldl_bind_cons {σ : Type} (f : String → σ → Option σ) (n : String)
    (ns : List String) (st : σ) :
    (n :: ns).foldl (fun acc m => acc.bind (f m)) (some st) =
      (f n st).bind fun st' => ns.foldl (fun acc m => acc.bind (f m)) (some st') := by
  cases h : f n st with
  | none => simp [h, foldl_bind_none]
  | some st' => simp [h]

/-- If every step of a `forEach` over `ns` respects a reflexive transitive
relation `R`, so does the whole fold. -/
theorem foldl_bind_rel {σ : Type} {f : String → σ → Option σ}
    {R : σ → σ → Prop} (hrefl : ∀ st, R st st)
    (htrans : ∀ a b c, R a b → R b c → R a c) :
    ∀ {ns : List String}, (∀ n ∈ ns, ∀ a b, f n a = some b → R a b) →
      ∀ {a b}, ns.foldl (fun acc n => acc.bind (f n)) (some a) = some b → R a b := by
  intro ns
  induction ns with
  | nil =>
    intro _ a b h
    cases h
    exact hrefl a
  | cons n ns ih =>
    intro hsteps a b h
    rw [foldl_bind_cons] at h
    cases hf : f n a with
    | none => rw [hf] at h; simp at h
    | some a' =>
      rw [hf, Option.some_bind] at h
      exact htrans _ _ _ (hsteps n (by simp) a a' hf)
        (ih (fun m hm => hsteps m (by simp [hm])) h)


/-! ## Properties of the canonical resolver -/

theorem visitRole_succ (reg : Registry) (fuel : Nat) (n : String) (st : ResolveSt) :
    visitRole reg (fuel + 1) n st =
      if n ∈ st.1 then some st
      else
        match mapGet reg n with
        | none => some (st.1 ++ [n], st.2)
        | some r => visitList reg fuel r.inherits (st.1 ++ [n], addAll st.2 r.permissions) :=
  rfl

theorem visitList_eq (reg : Registry) (fuel : Nat) (ns : List String) (st : ResolveSt) :
    visitList reg fuel ns st =
      ns.foldl (fun acc n => acc.bind (visitRole reg fuel n)) (some st) :=
  rfl

/-- Lift a per-visit invariant to the whole `forEach`. -/
theorem visitList_rel {R : ResolveSt → ResolveSt → Prop}
    (hrefl : ∀ st, R st st) (htrans : ∀ a b c, R a b → R b c → R a c)
    {reg : Registry} {fuel : Nat} {ns : List String}
    (h : ∀ n ∈ ns, ∀ st st', visitRole reg fuel n st = some st' → R st st') :
    ∀ {st st' : ResolveSt}, visitList reg fuel ns st = some st' → R st st' := by
  intro st st' hh
  rw [visitList_eq] at hh
  exact foldl_bind_rel hrefl htrans h hh

/-- Both components of the state only grow. -/
theorem visitRole_mono (reg : Registry) : ∀ fuel : Nat, ∀ {n : String} {st st' : ResolveSt},
    visitRole reg fuel n st = some st' → st.1 ⊆ st'.1 ∧ st.2 ⊆ st'.2 := by
  intro fuel
  induction fuel with
  | zero => intro n st st' h; simp [visitRole] at h
  | succ fuel ih =>
    intro n st st' h
    rw [visitRole_succ] at h
    split at h
    · cases h
      exact ⟨List.Subset.refl _, List.Subset.refl _⟩
    · split at h
      · cases h
        exact ⟨List.subset_append_left _ _, List.Subset.refl _⟩
      · rename_i r hr
        have hlist := visitList_rel (R := fun a b : ResolveSt => a.1 ⊆ b.1 ∧ a.2 ⊆ b.2)
          (fun st => ⟨List.Subset.refl _, List.Subset.refl _⟩)
          (fun a b c hab hbc => ⟨hab.1.trans hbc.1, hab.2.trans hbc.2⟩)
          (fun m _ a b hm => ih hm) h
        exact ⟨(List.subset_append_left _ _).trans hlist.1,
          subset_addAll.trans hlist.2⟩

theorem visitList_mono {reg : Registry} {fuel : Nat} {ns : List String}
    {st st' : ResolveSt} (h : visitList reg fuel ns st = some st') :
    st.1 ⊆ st'.1 ∧ st.2 ⊆ st'.2 :=
  visitList_rel (fun st => ⟨List.Subset.refl _, List.Subset.refl _⟩)
    (fun a b c hab hbc => ⟨hab.1.trans hbc.1, hab.2.trans hbc.2⟩)
    (fun n _ a b hm => visitRole_mono reg fuel hm) h

/-- A successfully visited name ends up in the visited set. -/
theorem visitRole_self_visited {reg : Registry} {fuel : Nat} {n : String}
    {st st' : ResolveSt} (h : visitRole reg fuel n st = some st') : n ∈ st'.1 := by
  cases fuel with
  | zero => simp [visitRole] at h
  | succ fuel =>
    rw [visitRole_succ] at h
    split at h
    · rename_i hv
      cases h
      exact hv
    · split at h
      · cases h
        simp
      · have := (visitList_mono h).1
        exact this (by simp)

theorem visitList_all_visited {reg : Registry} {fuel : Nat} :
    ∀ {ns : List String} {st st' : ResolveSt},
      visitList reg fuel ns st = some st' → ∀ n ∈ ns, n ∈ st'.1 := by
  intro ns
  induction ns with
  | nil => intro st st' _ n hn; simp at hn
  | cons m ms ih =>
    intro st st' h n hn
    rw [visitList_eq, foldl_bind_cons] at h
    cases hf : visitRole reg fuel m st with
    | none => rw [hf] at h; simp at h
    | some st₁ =>
      rw [hf, Option.some_bind] at h
      rw [← visitList_eq] at h
      rcases List.mem_cons.mp hn with rfl | hn
      · exact (visitList_mono h).1 (visitRole_self_visited hf)
      · exact ih h n hn

theorem Reach.trans {reg : Registry} {a b c : String}
    (hab : Reach reg a b) (hbc : Reach reg b c) : Reach reg a c := by
  induction hbc with
  | refl => exact hab
  | tail _ hget hmem ih => exact Reach.tail ih hget hmem

/-- Soundness: every newly visited name is reachable from the visited name. -/
theorem visitRole_reach (reg : Registry) : ∀ fuel : Nat, ∀ {n : String} {st st' : ResolveSt},
    visitRole reg fuel n st = some st' →
      ∀ m ∈ st'.1, m ∈ st.1 ∨ Reach reg n m := by
  intro fuel
  induction fuel with
  | zero => intro n st st' h; simp [visitRole] at h
  | succ fuel ih =>
    intro n st st' h
    rw [visitRole_succ] at h
    split at h
    · cases h
      exact fun m hm => Or.inl hm
    · split at h
      · cases h
        intro m hm
        rcases List.mem_append.mp hm with hm | hm
        · exact Or.inl hm
        · simp at hm
          subst hm
          exact Or.inr (Reach.refl _)
      · rename_i r hr
        intro m hm
        have hlist := visitList_rel
          (R := fun a b : ResolveSt =>
            ∀ x ∈ b.1, x ∈ a.1 ∨ ∃ s ∈ r.inherits, Reach reg s x)
          (fun st x hx => Or.inl hx)
          (fun a b c hab hbc x hx => by
            rcases hbc x hx with hx' | hx'
            · exact hab x hx'
            · exact Or.inr hx')
          (fun s hs a b hsab x hx => by
            rcases ih hsab x hx with hx' | hx'
            · exact Or.inl hx'
            · exact Or.inr ⟨s, hs, hx'⟩) h
        rcases hlist m hm with hm' | ⟨s, hs, hreach⟩
        · rcases List.mem_append.mp hm' with hm' | hm'
          · exact Or.inl hm'
          · simp at hm'
            subst hm'
            exact Or.inr (Reach.refl _)
        · exact Or.inr ((Reach.tail (Reach.refl n) hr hs).trans hreach)

theorem visitList_reach {reg : Registry} {fuel : Nat} {ns : List String}
    {st st' : ResolveSt} (h : visitList reg fuel ns st = some st') :
    ∀ m ∈ st'.1, m ∈ st.1 ∨ ∃ s ∈ ns, Reach reg s m :=
  visitList_rel
    (R := fun a b : ResolveSt => ∀ x ∈ b.1, x ∈ a.1 ∨ ∃ s ∈ ns, Reach reg s x)
    (fun st x hx => Or.inl hx)
    (fun a b c hab hbc x hx => by
      rcases hbc x hx with hx' | hx'
      · exact hab x hx'
      · exact Or.inr hx')
    (fun s hs a b hsab x hx => by
      rcases visitRole_reach reg fuel hsab x hx with hx' | hx'
      · exact Or.inl hx'
      · exact Or.inr ⟨s, hs, hx'⟩) h

/-- Every newly visited registered role has had all its parents visited. -/
theorem visitRole_closed (reg : Registry) : ∀ fuel : Nat, ∀ {n : String} {st st' : ResolveSt},
    visitRole reg fuel n st = some st' →
      st.1 ⊆ st'.1 ∧
        ∀ m ρ, m ∈ st'.1 → m ∉ st.1 → mapGet reg m = some ρ → ρ.inherits ⊆ st'.1 := by
  intro fuel
  induction fuel with
  | zero => intro n st st' h; simp [visitRole] at h
  | succ fuel ih =>
    intro n st st' h
    rw [visitRole_succ] at h
    split at h
    · cases h
      exact ⟨List.Subset.refl _, fun m ρ hm hm' _ => absurd hm hm'⟩
    · rename_i hv
      split at h
      · rename_i hr
        cases h
        refine ⟨List.subset_append_left _ _, fun m ρ hm hm' hget => ?_⟩
        rcases List.mem_append.mp hm with hm | hm
        · exact absurd hm hm'
        · simp at hm
          subst hm
          rw [hr] at hget
          cases hget
      · rename_i r hr
        have hlist := visitList_rel
          (R := fun a b : ResolveSt =>
            a.1 ⊆ b.1 ∧ ∀ m ρ, m ∈ b.1 → m ∉ a.1 → mapGet reg m = some ρ → ρ.inherits ⊆ b.1)
          (fun st => ⟨List.Subset.refl _, fun m ρ hm hm' _ => absurd hm hm'⟩)
          (fun a b c hab hbc => by
            refine ⟨hab.1.trans hbc.1, fun m ρ hm hm' hget => ?_⟩
            by_cases hmb : m ∈ b.1
            · exact (hab.2 m ρ hmb hm' hget).trans hbc.1
            · exact hbc.2 m ρ hm hmb hget)
          (fun s _ a b hs => ih hs) h
        refine ⟨(List.subset_append_left _ _).trans hlist.1, fun m ρ hm hm' hget => ?_⟩
        by_cases hmn : m = n
        · subst hmn
          rw [hr] at hget
          cases hget
          intro c hc
          exact visitList_all_visited h c hc
        · exact hlist.2 m ρ hm (by simp [hm', hmn]) hget

theorem visitList_closed {reg : Registry} {fuel : Nat} {ns : List String}
    {st st' : ResolveSt} (h : visitList reg fuel ns st = some st') :
    ∀ m ρ, m ∈ st'.1 → m ∉ st.1 → mapGet reg m = some ρ → ρ.inherits ⊆ st'.1 :=
  (visitList_rel
    (R := fun a b : ResolveSt =>
      a.1 ⊆ b.1 ∧ ∀ m ρ, m ∈ b.1 → m ∉ a.1 → mapGet reg m = some ρ → ρ.inherits ⊆ b.1)
    (fun st => ⟨List.Subset.refl _, fun m ρ hm hm' _ => absurd hm hm'⟩)
    (fun a b c hab hbc => by
      refine ⟨hab.1.trans hbc.1, fun m ρ hm hm' hget => ?_⟩
      by_cases hmb : m ∈ b.1
      · exact (hab.2 m ρ hmb hm' hget).trans hbc.1
      · exact hbc.2 m ρ hm hmb hget)
    (fun s _ a b hs => visitRole_closed reg fuel hs) h).2

/-- What ends up in `prms`: the starting permissions plus the permissions of
every newly visited registered role. -/
theorem visitRole_mem (reg : Registry) : ∀ fuel : Nat, ∀ {n : String} {st st' : ResolveSt},
    visitRole reg fuel n st = some st' →
      st.1 ⊆ st'.1 ∧
        ∀ x, x ∈ st'.2 ↔ x ∈ st.2 ∨
          ∃ m ρ, m ∈ st'.1 ∧ m ∉ st.1 ∧ mapGet reg m = some ρ ∧ x ∈ ρ.permissions := by
  intro fuel
  induction fuel with
  | zero => intro n st st' h; simp [visitRole] at h
  | succ fuel ih =>
    intro n st st' h
    rw [visitRole_succ] at h
    split at h
    · cases h
      refine ⟨List.Subset.refl _, fun x => ?_⟩
      constructor
      · exact Or.inl
      · rintro (hx | ⟨m, ρ, hm, hm', _⟩)
        · exact hx
        · exact absurd hm hm'
    · rename_i hv
      split at h
      · rename_i hr
        cases h
        refine ⟨List.subset_append_left _ _, fun x => ?_⟩
        constructor
        · exact Or.inl
        · rintro (hx | ⟨m, ρ, hm, hm', hget, _⟩)
          · exact hx
          · rcases List.mem_append.mp hm with hm | hm
            · exact absurd hm hm'
            · simp at hm
              subst hm
              rw [hr] at hget
              cases hget
      · rename_i r hr
        have hlist := visitList_rel
          (R := fun a b : ResolveSt =>
            a.1 ⊆ b.1 ∧ ∀ x, x ∈ b.2 ↔ x ∈ a.2 ∨
              ∃ m ρ, m ∈ b.1 ∧ m ∉ a.1 ∧ mapGet reg m = some ρ ∧ x ∈ ρ.permissions)
          (fun st => ⟨List.Subset.refl _, fun x =>
            ⟨Or.inl, by
              rintro (hx | ⟨m, ρ, hm, hm', _⟩)
              · exact hx
              · exact absurd hm hm'⟩⟩)
          (fun a b c hab hbc => by
            refine ⟨hab.1.trans hbc.1, fun x => ?_⟩
            rw [hbc.2, hab.2]
            constructor
            · rintro ((hx | ⟨m, ρ, hm, hm', hget, hx⟩) | ⟨m, ρ, hm, hm', hget, hx⟩)
              · exact Or.inl hx
              · exact Or.inr ⟨m, ρ, hbc.1 hm, hm', hget, hx⟩
              · exact Or.inr ⟨m, ρ, hm, fun hma => hm' (hab.1 hma), hget, hx⟩
            · rintro (hx | ⟨m, ρ, hm, hm', hget, hx⟩)
              · exact Or.inl (Or.inl hx)
              · by_cases hmb : m ∈ b.1
                · exact Or.inl (Or.inr ⟨m, ρ, hmb, hm', hget, hx⟩)
                · exact Or.inr ⟨m, ρ, hm, hmb, hget, hx⟩)
          (fun s _ a b hs => ih hs) h
        refine ⟨(List.subset_append_left _ _).trans hlist.1, fun x => ?_⟩
        rw [hlist.2, mem_addAll]
        constructor
        · rintro ((hx | hx) | ⟨m, ρ, hm, hm', hget, hx⟩)
          · exact Or.inl hx
          · exact Or.inr ⟨n, r, hlist.1 (by simp), hv, hr, hx⟩
          · exact Or.inr ⟨m, ρ, hm, fun hma => hm' (List.mem_append_left _ hma), hget, hx⟩
        · rintro (hx | ⟨m, ρ, hm, hm', hget, hx⟩)
          · exact Or.inl (Or.inl hx)
          · by_cases hmn : m = n
            · subst hmn
              rw [hr] at hget
              cases hget
              exact Or.inl (Or.inr hx)
            · exact Or.inr ⟨m, ρ, hm, by simp [hm', hmn], hget, hx⟩

theorem visitList_mem {reg : Registry} {fuel : Nat} {ns : List String}
    {st st' : ResolveSt} (h : visitList reg fuel ns st = some st') :
    ∀ x, x ∈ st'.2 ↔ x ∈ st.2 ∨
      ∃ m ρ, m ∈ st'.1 ∧ m ∉ st.1 ∧ mapGet reg m = some ρ ∧ x ∈ ρ.permissions :=
  (visitList_rel
    (R := fun a b : ResolveSt =>
      a.1 ⊆ b.1 ∧ ∀ x, x ∈ b.2 ↔ x ∈ a.2 ∨
        ∃ m ρ, m ∈ b.1 ∧ m ∉ a.1 ∧ mapGet reg m = some ρ ∧ x ∈ ρ.permissions)
    (fun st => ⟨List.Subset.refl _, fun x =>
      ⟨Or.inl, by
        rintro (hx | ⟨m, ρ, hm, hm', _⟩)
        · exact hx
        · exact absurd hm hm'⟩⟩)
    (fun a b c hab hbc => by
      refine ⟨hab.1.trans hbc.1, fun x => ?_⟩
      rw [hbc.2, hab.2]
      constructor
      · rintro ((hx | ⟨m, ρ, hm, hm', hget, hx⟩) | ⟨m, ρ, hm, hm', hget, hx⟩)
        · exact Or.inl hx
        · exact Or.inr ⟨m, ρ, hbc.1 hm, hm', hget, hx⟩
        · exact Or.inr ⟨m, ρ, hm, fun hma => hm' (hab.1 hma), hget, hx⟩
      · rintro (hx | ⟨m, ρ, hm, hm', hget, hx⟩)
        · exact Or.inl (Or.inl hx)
        · by_cases hmb : m ∈ b.1
          · exact Or.inl (Or.inr ⟨m, ρ, hmb, hm', hget, hx⟩)
          · exact Or.inr ⟨m, ρ, hm, hmb, hget, hx⟩)
    (fun s _ a b hs => visitRole_mem reg fuel hs) h).2

/-- The permission accumulator never acquires duplicates. -/
theorem visitRole_nodup (reg : Registry) : ∀ fuel : Nat, ∀ {n : String} {st st' : ResolveSt},
    visitRole reg fuel n st = some st' → st.2.Nodup → st'.2.Nodup := by
  intro fuel
  induction fuel with
  | zero => intro n st st' h; simp [visitRole] at h
  | succ fuel ih =>
    intro n st st' h hnd
    rw [visitRole_succ] at h
    split at h
    · cases h
      exact hnd
    · split at h
      · cases h
        exact hnd
      · have hlist := visitList_rel
          (R := fun a b : ResolveSt => a.2.Nodup → b.2.Nodup)
          (fun st hs => hs)
          (fun a b c hab hbc hs => hbc (hab hs))
          (fun s _ a b hs => ih hs) h
        exact hlist (nodup_addAll hnd)

theorem visitList_nodup {reg : Registry} {fuel : Nat} {ns : List String}
    {st st' : ResolveSt} (h : visitList reg fuel ns st = some st') :
    st.2.Nodup → st'.2.Nodup :=
  visitList_rel
    (R := fun a b : ResolveSt => a.2.Nodup → b.2.Nodup)
    (fun st hs => hs)
    (fun a b c hab hbc hs => hbc (hab hs))
    (fun s _ a b hs => visitRole_nodup reg fuel hs) h

/-! ## Termination: `engineFuel` never runs out -/

/-- Core sufficiency argument: with more fuel than there are unvisited
encounterable names, the traversal completes.  This is the termination of the
source recursion, which has no fuel at all. -/
theorem visit_some (reg : Registry) (U : List String)
    (hcl : ∀ k r, mapGet reg k = some r → ∀ m ∈ r.inherits, m ∈ U) :
    ∀ fuel : Nat,
      (∀ n v p, n ∈ U → unvisited U v < fuel →
        ∃ st', visitRole reg fuel n (v, p) = some st') ∧
      (∀ ns, (∀ m ∈ ns, m ∈ U) → ∀ v p, unvisited U v < fuel →
        ∃ st', visitList reg fuel ns (v, p) = some st') := by
  intro fuel
  induction fuel with
  | zero =>
    constructor
    · intro n v p _ hlt
      exact absurd hlt (by simp)
    · intro ns _ v p hlt
      exact absurd hlt (by simp)
  | succ fuel ih =>
    have hsingle : ∀ n v p, n ∈ U → unvisited U v < fuel + 1 →
        ∃ st', visitRole reg (fuel + 1) n (v, p) = some st' := by
      intro n v p hnU hlt
      rw [visitRole_succ]
      by_cases hv : n ∈ v
      · exact ⟨(v, p), by simp [hv]⟩
      · simp only [hv, if_false]
        cases hr : mapGet reg n with
        | none => exact ⟨(v ++ [n], p), rfl⟩
        | some r =>
          have hdrop : unvisited U (v ++ [n]) < unvisited U v := unvisited_append_lt hnU hv
          have hfuel : unvisited U (v ++ [n]) < fuel := by omega
          exact ih.2 r.inherits (hcl n r hr) (v ++ [n]) (addAll p r.permissions) hfuel
    refine ⟨hsingle, ?_⟩
    intro ns
    induction ns with
    | nil =>
      intro _ v p _
      exact ⟨(v, p), rfl⟩
    | cons m ms ihns =>
      intro hmem v p hlt
      obtain ⟨st₁, hst₁⟩ := hsingle m v p (hmem m (by simp)) hlt
      have hv₁ : v ⊆ st₁.1 := (visitRole_mono reg (fuel + 1) hst₁).1
      have hlt₁ : unvisited U st₁.1 < fuel + 1 :=
        Nat.lt_of_le_of_lt (unvisited_anti hv₁) hlt
      obtain ⟨st', hst'⟩ := ihns (fun x hx => hmem x (by simp [hx])) st₁.1 st₁.2 hlt₁
      refine ⟨st', ?_⟩
      rw [visitList_eq, foldl_bind_cons, hst₁, Option.some_bind, ← visitList_eq]
      exact hst'

/-- The fuel chosen by the embedding always suffices: `getPermissions`
terminates on every registry and subject, cycles included. -/
theorem getPermissions_total (reg : Registry) (s : Subject) :
    ∃ st, visitList reg (engineFuel reg s.roles) s.roles
      ([], addAll [] s.permissions) = some st := by
  have hcl : ∀ k r, mapGet reg k = some r → ∀ m ∈ r.inherits,
      m ∈ roleUniverse reg s.roles := by
    intro k r hget m hm
    unfold roleUniverse
    refine List.mem_append_right _ ?_
    rw [List.mem_flatten]
    exact ⟨r.inherits, List.mem_map.mpr ⟨(k, r), mapGet_mem hget, rfl⟩, hm⟩
  have hU : ∀ m ∈ s.roles, m ∈ roleUniverse reg s.roles := by
    intro m hm
    exact List.mem_append_left _ hm
  have hlt : unvisited (roleUniverse reg s.roles) [] < engineFuel reg s.roles := by
    unfold engineFuel
    exact Nat.lt_succ_of_le unvisited_le
  exact (visit_some reg (roleUniverse reg s.roles) hcl (engineFuel reg s.roles)).2
    s.roles hU [] (addAll [] s.permissions) hlt

/-! ## Top-level characterization of the effective permission set -/

/-- The visited set of a full run is exactly the set of names reachable from
the starting names. -/
theorem visitList_visited_iff_reach {reg : Registry} {fuel : Nat} {ns : List String}
    {p0 : List String} {st' : ResolveSt}
    (h : visitList reg fuel ns ([], p0) = some st') :
    ∀ m, m ∈ st'.1 ↔ ∃ s ∈ ns, Reach reg s m := by
  intro m
  constructor
  · intro hm
    rcases visitList_reach h m hm with hm' | hm'
    · simp at hm'
    · exact hm'
  · rintro ⟨s, hs, hreach⟩
    induction hreach with
    | refl => exact visitList_all_visited h _ hs
    | tail _ hget hmem ih =>
      rename_i a b r
      exact visitList_closed h _ _ ih (by simp) hget hmem

/-- Membership in the effective permission set: a direct permission, or a
permission of some registered role reachable from `subject.roles`. -/
theorem getPermissionsList_mem (reg : Registry) (s : Subject) (x : String) :
    x ∈ getPermissionsList reg s ↔
      x ∈ s.permissions ∨
        ∃ m ρ, (∃ n ∈ s.roles, Reach reg n m) ∧ mapGet reg m = some ρ ∧
          x ∈ ρ.permissions := by
  obtain ⟨st, hst⟩ := getPermissions_total reg s
  unfold getPermissionsList
  rw [hst]
  have hmem := visitList_mem hst x
  have hreach := visitList_visited_iff_reach hst
  rw [hmem, mem_addAll]
  simp only [List.not_mem_nil, false_or]
  constructor
  · rintro (hx | ⟨m, ρ, hm, _, hget, hx⟩)
    · exact Or.inl hx
    · exact Or.inr ⟨m, ρ, (hreach m).mp hm, hget, hx⟩
  · rintro (hx | ⟨m, ρ, hm, hget, hx⟩)
    · exact Or.inl hx
    · exact Or.inr ⟨m, ρ, (hreach m).mpr hm, by simp, hget, hx⟩

/-- The effective permission set is duplicate-free (it is a JS `Set`): each
role contributes its permissions at most once. -/
theorem getPermissionsList_nodup (reg : Registry) (s : Subject) :
    (getPermissionsList reg s).Nodup := by
  obtain ⟨st, hst⟩ := getPermissions_total reg s
  unfold getPermissionsList
  rw [hst]
  exact visitList_nodup hst (nodup_addAll List.nodup_nil)

/-! ## The alternate resolver: bridge and characterization -/

theorem visitRoleAlt_succ (reg : Registry) (fuel : Nat) (n : String)
    (st : List String × List Role) :
    visitRoleAlt reg (fuel + 1) n st =
      if n ∈ st.1 then some st
      else
        match mapGet reg n with
        | none => some (st.1 ++ [n], st.2)
        | some r =>
          (visitListAlt reg fuel r.inherits (st.1 ++ [n], st.2)).map
            fun st' => (st'.1, st'.2 ++ [r]) :=
  rfl

theorem visitListAlt_eq (reg : Registry) (fuel : Nat) (ns : List String)
    (st : List String × List Role) :
    visitListAlt reg fuel ns st =
      ns.foldl (fun acc n => acc.bind (visitRoleAlt reg fuel n)) (some st) :=
  rfl

theorem visitListAlt_rel {R : List String × List Role → List String × List Role → Prop}
    (hrefl : ∀ st, R st st) (htrans : ∀ a b c, R a b → R b c → R a c)
    {reg : Registry} {fuel : Nat} {ns : List String}
    (h : ∀ n ∈ ns, ∀ st st', visitRoleAlt reg fuel n st = some st' → R st st') :
    ∀ {st st'}, visitListAlt reg fuel ns st = some st' → R st st' := by
  intro st st' hh
  rw [visitListAlt_eq] at hh
  exact foldl_bind_rel hrefl htrans h hh

/-- Both resolvers make identical visiting decisions, step for step: same
success and the same visited set. -/
theorem bridge_list_of_single {reg : Registry} {fuel : Nat}
    (hsingle : ∀ n v rs p, (visitRoleAlt reg fuel n (v, rs)).map Prod.fst =
      (visitRole reg fuel n (v, p)).map Prod.fst) :
    ∀ ns v rs p, (visitListAlt reg fuel ns (v, rs)).map Prod.fst =
      (visitList reg fuel ns (v, p)).map Prod.fst := by
  intro ns
  induction ns with
  | nil => intro v rs p; rfl
  | cons n ns ih =>
    intro v rs p
    rw [visitListAlt_eq, visitList_eq, foldl_bind_cons, foldl_bind_cons]
    have h := hsingle n v rs p
    cases hA : visitRoleAlt reg fuel n (v, rs) with
    | none =>
      rw [hA] at h
      cases hC : visitRole reg fuel n (v, p) with
      | none => simp [foldl_bind_none]
      | some st => rw [hC] at h; simp at h
    | some stA =>
      rw [hA] at h
      cases hC : visitRole reg fuel n (v, p) with
      | none => rw [hC] at h; simp at h
      | some stC =>
        rw [hC] at h
        simp only [Option.map_some', Option.some.injEq] at h
        rw [Option.some_bind, Option.some_bind, ← visitListAlt_eq, ← visitList_eq]
        have hstA : stA = (stA.1, stA.2) := rfl
        have hstC : stC = (stC.1, stC.2) := rfl
        rw [hstA, hstC, h]
        exact ih stC.1 stA.2 stC.2

theorem visit_bridge (reg : Registry) : ∀ fuel : Nat, ∀ n v rs p,
    (visitRoleAlt reg fuel n (v, rs)).map Prod.fst =
      (visitRole reg fuel n (v, p)).map Prod.fst := by
  intro fuel
  induction fuel with
  | zero => intro n v rs p; rfl
  | succ fuel ih =>
    intro n v rs p
    rw [visitRoleAlt_succ, visitRole_succ]
    by_cases hv : n ∈ v
    · simp [hv]
    · simp only [hv, if_false]
      cases hr : mapGet reg n with
      | none => rfl
      | some r =>
        simp only []
        rw [Option.map_map]
        have hcomp : (Prod.fst ∘ fun st' : List String × List Role =>
            (st'.1, st'.2 ++ [r])) = Prod.fst := by
          funext st'
          rfl
        rw [hcomp]
        exact bridge_list_of_single (fun n v rs p => ih n v rs p) r.inherits
          (v ++ [n]) rs (addAll p r.permissions)

theorem visitList_bridge (reg : Registry) (fuel : Nat) (ns : List String)
    (v : List String) (rs : List Role) (p : List String) :
    (visitListAlt reg fuel ns (v, rs)).map Prod.fst =
      (visitList reg fuel ns (v, p)).map Prod.fst :=
  bridge_list_of_single (fun n v rs p => visit_bridge reg fuel n v rs p) ns v rs p

/-- The collected role list of the alternate resolver: exactly the registered
roles among the newly visited names. -/
theorem visitRoleAlt_roles (reg : Registry) : ∀ fuel : Nat,
    ∀ {n : String} {st st' : List String × List Role},
    visitRoleAlt reg fuel n st = some st' →
      st.1 ⊆ st'.1 ∧ st.2 ⊆ st'.2 ∧
        ∀ ρ, ρ ∈ st'.2 ↔ ρ ∈ st.2 ∨
          ∃ m, m ∈ st'.1 ∧ m ∉ st.1 ∧ mapGet reg m = some ρ := by
  intro fuel
  induction fuel with
  | zero => intro n st st' h; simp [visitRoleAlt] at h
  | succ fuel ih =>
    intro n st st' h
    rw [visitRoleAlt_succ] at h
    split at h
    · cases h
      refine ⟨List.Subset.refl _, List.Subset.refl _, fun ρ => ?_⟩
      constructor
      · exact Or.inl
      · rintro (hρ | ⟨m, hm, hm', _⟩)
        · exact hρ
        · exact absurd hm hm'
    · rename_i hv
      split at h
      · rename_i hr
        cases h
        refine ⟨List.subset_append_left _ _, List.Subset.refl _, fun ρ => ?_⟩
        constructor
        · exact Or.inl
        · rintro (hρ | ⟨m, hm, hm', hget⟩)
          · exact hρ
          · rcases List.mem_append.mp hm with hm | hm
            · exact absurd hm hm'
            · simp at hm
              subst hm
              rw [hr] at hget
              cases hget
      · rename_i r hr
        cases hlst : visitListAlt reg fuel r.inherits (st.1 ++ [n], st.2) with
        | none => rw [hlst] at h; simp at h
        | some stm =>
          rw [hlst] at h
          simp only [Option.map_some', Option.some.injEq] at h
          subst h
          have hlist := visitListAlt_rel
            (R := fun a b : List String × List Role =>
              a.1 ⊆ b.1 ∧ a.2 ⊆ b.2 ∧ ∀ ρ, ρ ∈ b.2 ↔ ρ ∈ a.2 ∨
                ∃ m, m ∈ b.1 ∧ m ∉ a.1 ∧ mapGet reg m = some ρ)
            (fun st => ⟨List.Subset.refl _, List.Subset.refl _, fun ρ =>
              ⟨Or.inl, by
                rintro (hρ | ⟨m, hm, hm', _⟩)
                · exact hρ
                · exact absurd hm hm'⟩⟩)
            (fun a b c hab hbc => by
              refine ⟨hab.1.trans hbc.1, hab.2.1.trans hbc.2.1, fun ρ => ?_⟩
              rw [hbc.2.2, hab.2.2]
              constructor
              · rintro ((hρ | ⟨m, hm, hm', hget⟩) | ⟨m, hm, hm', hget⟩)
                · exact Or.inl hρ
                · exact Or.inr ⟨m, hbc.1 hm, hm', hget⟩
                · exact Or.inr ⟨m, hm, fun hma => hm' (hab.1 hma), hget⟩
              · rintro (hρ | ⟨m, hm, hm', hget⟩)
                · exact Or.inl (Or.inl hρ)
                · by_cases hmb : m ∈ b.1
                  · exact Or.inl (Or.inr ⟨m, hmb, hm', hget⟩)
                  · exact Or.inr ⟨m, hm, hmb, hget⟩)
            (fun s _ a b hs => ih hs) hlst
          refine ⟨(List.subset_append_left _ _).trans hlist.1,
            fun ρ hρ => List.mem_append_left _ (hlist.2.1 hρ), fun ρ => ?_⟩
          constructor
          · intro hρ
            rcases List.mem_append.mp hρ with hρ | hρ
            · rcases (hlist.2.2 ρ).mp hρ with hρ' | ⟨m, hm, hm', hget⟩
              · exact Or.inl hρ'
              · exact Or.inr ⟨m, hm, fun hma => hm' (List.mem_append_left _ hma), hget⟩
            · simp at hρ
              subst hρ
              exact Or.inr ⟨n, hlist.1 (by simp), hv, hr⟩
          · rintro (hρ | ⟨m, hm, hm', hget⟩)
            · exact List.mem_append_left _ ((hlist.2.2 ρ).mpr (Or.inl hρ))
            · by_cases hmn : m = n
              · subst hmn
                rw [hr] at hget
                cases hget
                exact List.mem_append_right _ (by simp)
              · exact List.mem_append_left _
                  ((hlist.2.2 ρ).mpr (Or.inr ⟨m, hm, by simp [hm', hmn], hget⟩))

theorem visitListAlt_roles {reg : Registry} {fuel : Nat} {ns : List String}
    {st st' : List String × List Role} (h : visitListAlt reg fuel ns st = some st') :
    ∀ ρ, ρ ∈ st'.2 ↔ ρ ∈ st.2 ∨
      ∃ m, m ∈ st'.1 ∧ m ∉ st.1 ∧ mapGet reg m = some ρ :=
  (visitListAlt_rel
    (R := fun a b : List String × List Role =>
      a.1 ⊆ b.1 ∧ a.2 ⊆ b.2 ∧ ∀ ρ, ρ ∈ b.2 ↔ ρ ∈ a.2 ∨
        ∃ m, m ∈ b.1 ∧ m ∉ a.1 ∧ mapGet reg m = some ρ)
    (fun st => ⟨List.Subset.refl _, List.Subset.refl _, fun ρ =>
      ⟨Or.inl, by
        rintro (hρ | ⟨m, hm, hm', _⟩)
        · exact hρ
        · exact absurd hm hm'⟩⟩)
    (fun a b c hab hbc => by
      refine ⟨hab.1.trans hbc.1, hab.2.1.trans hbc.2.1, fun ρ => ?_⟩
      rw [hbc.2.2, hab.2.2]
      constructor
      · rintro ((hρ | ⟨m, hm, hm', hget⟩) | ⟨m, hm, hm', hget⟩)
        · exact Or.inl hρ
        · exact Or.inr ⟨m, hbc.1 hm, hm', hget⟩
        · exact Or.inr ⟨m, hm, fun hma => hm' (hab.1 hma), hget⟩
      · rintro (hρ | ⟨m, hm, hm', hget⟩)
        · exact Or.inl (Or.inl hρ)
        · by_cases hmb : m ∈ b.1
          · exact Or.inl (Or.inr ⟨m, hmb, hm', hget⟩)
          · exact Or.inr ⟨m, hm, hmb, hget⟩)
    (fun s _ a b hs => visitRoleAlt_roles reg fuel hs) h).2.2

/-- The two resolvers produce the same effective permission set. -/
theorem resolvePermissionsList_mem (reg : Registry) (s : Subject) (x : String) :
    x ∈ resolvePermissionsList reg s ↔ x ∈ getPermissionsList reg s := by
  obtain ⟨st, hst⟩ := getPermissions_total reg s
  have hbr := visitList_bridge reg (engineFuel reg s.roles) s.roles [] []
    (addAll [] s.permissions)
  rw [hst] at hbr
  cases hA : visitListAlt reg (engineFuel reg s.roles) s.roles ([], []) with
  | none => rw [hA] at hbr; simp at hbr
  | some stA =>
    rw [hA] at hbr
    simp only [Option.map_some', Option.some.injEq] at hbr
    unfold resolvePermissionsList resolveRoles
    rw [hA]
    simp only []
    rw [mem_addAll, mem_foldl_addAllPerms, mem_addAll]
    have hroles := visitListAlt_roles hA
    have hreach := visitList_visited_iff_reach hst
    rw [getPermissionsList_mem]
    constructor
    · rintro (((hx | hx) | ⟨ρ, hρ, hxρ⟩) | hx)
      · simp at hx
      · exact Or.inl hx
      · rw [mem_sortByLevelDesc] at hρ
        rcases (hroles ρ).mp hρ with hρ' | ⟨m, hm, _, hget⟩
        · simp at hρ'
        · exact Or.inr ⟨m, ρ, (hreach m).mp (hbr ▸ hm), hget, hxρ⟩
      · exact Or.inl hx
    · rintro (hx | ⟨m, ρ, hm, hget, hxρ⟩)
      · exact Or.inl (Or.inl (Or.inr hx))
      · refine Or.inl (Or.inr ⟨ρ, ?_, hxρ⟩)
        rw [mem_sortByLevelDesc]
        exact (hroles ρ).mpr (Or.inr ⟨m, hbr ▸ (hreach m).mpr hm, by simp, hget⟩)

/-! ## From permission sets to decisions -/

theorem any_congr_mem {l₁ l₂ : List String} (h : ∀ x, x ∈ l₁ ↔ x ∈ l₂)
    (f : String → Bool) : l₁.any f = l₂.any f := by
  rw [Bool.eq_iff_iff, List.any_eq_true, List.any_eq_true]
  constructor
  · rintro ⟨x, hx, hfx⟩
    exact ⟨x, (h x).mp hx, hfx⟩
  · rintro ⟨x, hx, hfx⟩
    exact ⟨x, (h x).mpr hx, hfx⟩

theorem canAlt_eq_can (e : RBACEngine) (s : Subject) (p : String)
    (c : AuthorizationContext) : canAlt e s p c = can e s p c := by
  simp only [can, canAlt]
  rw [any_congr_mem (resolvePermissionsList_mem e.roles s)
    (fun perm => Permission.matches perm p)]

/-! ## Registry equivalence and invariance of the decision -/

theorem Reach_equiv {reg reg' : Registry} (h : RegEquiv reg reg') {a b : String}
    (hab : Reach reg a b) : Reach reg' a b := by
  induction hab with
  | refl => exact Reach.refl _
  | @tail b' c' r' hpre hget hmem ih =>
    rcases h b' with ⟨hn, _⟩ | ⟨ρ, ρ', hρ, hρ', hequiv⟩
    · rw [hget] at hn
      cases hn
    · rw [hget] at hρ
      cases hρ
      exact Reach.tail ih hρ' ((hequiv.1 c').mp hmem)

theorem RegEquiv.symm {reg reg' : Registry} (h : RegEquiv reg reg') :
    RegEquiv reg' reg := by
  intro k
  rcases h k with ⟨h1, h2⟩ | ⟨r, r', h1, h2, hequiv⟩
  · exact Or.inl ⟨h2, h1⟩
  · exact Or.inr ⟨r', r, h2, h1, fun m => (hequiv.1 m).symm,
      fun x => (hequiv.2 x).symm⟩

/-- The effective permission set only depends on: the membership of
`subject.permissions`, the membership of `subject.roles`, and the registry
up to equivalence. -/
theorem getPermissionsList_invariant {reg reg' : Registry} {s s' : Subject}
    (hreg : RegEquiv reg reg')
    (hroles : ∀ n, n ∈ s.roles ↔ n ∈ s'.roles)
    (hperms : ∀ x, x ∈ s.permissions ↔ x ∈ s'.permissions) :
    ∀ x, x ∈ getPermissionsList reg s ↔ x ∈ getPermissionsList reg' s' := by
  intro x
  rw [getPermissionsList_mem, getPermissionsList_mem]
  constructor
  · rintro (hx | ⟨m, ρ, ⟨n, hn, hreach⟩, hget, hx⟩)
    · exact Or.inl ((hperms x).mp hx)
    · rcases hreg m with ⟨h1, _⟩ | ⟨r, r', h1, h2, hequiv⟩
      · rw [hget] at h1
        cases h1
      · rw [hget] at h1
        cases h1
        exact Or.inr ⟨m, r', ⟨n, (hroles n).mp hn, Reach_equiv hreg hreach⟩, h2,
          (hequiv.2 x).mp hx⟩
  · rintro (hx | ⟨m, ρ, ⟨n, hn, hreach⟩, hget, hx⟩)
    · exact Or.inl ((hperms x).mpr hx)
    · rcases hreg.symm m with ⟨h1, _⟩ | ⟨r, r', h1, h2, hequiv⟩
      · rw [hget] at h1
        cases h1
      · rw [hget] at h1
        cases h1
        exact Or.inr ⟨m, r', ⟨n, (hroles n).mpr hn, Reach_equiv hreg.symm hreach⟩,
          h2, (hequiv.2 x).mp hx⟩

theorem visitRoleS_succ (fuel : Nat) (n : String) (st : ResolveSt) (rs : Registry) :
    visitRoleS (fuel + 1) n st rs =
      if n ∈ st.1 then some (st, rs)
      else
        match mapGetS rs n with
        | (none, rs1) => some ((st.1 ++ [n], st.2), rs1)
        | (some r, rs1) =>
          r.inherits.foldl
            (fun acc parentName => acc.bind fun pr => visitRoleS fuel parentName pr.1 pr.2)
            (some ((st.1 ++ [n], addAll st.2 r.permissions), rs1)) :=
  rfl

/-- One `forEach` level of the threaded traversal, given the equality at the
previous level. -/
theorem visitSFold_eq (fuel : Nat) (rs : Registry)
    (hsingle : ∀ n st, visitRoleS fuel n st rs =
      (visitRole rs fuel n st).map fun st' => (st', rs)) :
    ∀ (ns : List String) (st0 : ResolveSt),
      ns.foldl (fun acc pn => acc.bind fun pr => visitRoleS fuel pn pr.1 pr.2)
          (some (st0, rs)) =
        (visitList rs fuel ns st0).map fun st' => (st', rs) := by
  intro ns
  induction ns with
  | nil => intro st0; rfl
  | cons pn pns ihns =>
    intro st0
    have hR : visitList rs fuel (pn :: pns) st0 =
        (visitRole rs fuel pn st0).bind fun st1 => visitList rs fuel pns st1 := by
      rw [visitList_eq, foldl_bind_cons]
      rfl
    have hL : (pn :: pns).foldl
        (fun acc pn => acc.bind fun pr => visitRoleS fuel pn pr.1 pr.2)
          (some (st0, rs)) =
        (visitRoleS fuel pn st0 rs).bind fun pr => pns.foldl
          (fun acc pn => acc.bind fun pr => visitRoleS fuel pn pr.1 pr.2) (some pr) := by
      rw [foldl_bind_cons]
    rw [hR, hL, hsingle pn st0]
    cases h1 : visitRole rs fuel pn st0 with
    | none => rfl
    | some st1 =>
      rw [Option.map_some', Option.some_bind, Option.some_bind]
      exact ihns st1

/-- The threaded traversal is the pure traversal paired with the untouched
registry: role resolution only ever reads the role map. -/
theorem visitRoleS_eq : ∀ fuel : Nat, ∀ (n : String) (st : ResolveSt) (rs : Registry),
    visitRoleS fuel n st rs = (visitRole rs fuel n st).map fun st' => (st', rs) := by
  intro fuel
  induction fuel with
  | zero => intro n st rs; rfl
  | succ fuel ih =>
    intro n st rs
    rw [visitRoleS_succ, visitRole_succ]
    by_cases hv : n ∈ st.1
    · simp [hv]
    · simp only [hv, if_false]
      cases hr : mapGet rs n with
      | none => simp [mapGetS, hr]
      | some r =>
        simp only [mapGetS, hr]
        exact visitSFold_eq fuel rs (fun n st => ih n st rs) r.inherits
          (st.1 ++ [n], addAll st.2 r.permissions)

theorem visitListS_eq (fuel : Nat) (ns : List String) (st : ResolveSt) (rs : Registry) :
    visitListS fuel ns st rs = (visitList rs fuel ns st).map fun st' => (st', rs) :=
  visitSFold_eq fuel rs (fun n st => visitRoleS_eq fuel n st rs) ns st

theorem getPermissionsListS_eq (reg : Registry) (s : Subject) :
    getPermissionsListS reg s = (getPermissionsList reg s, reg) := by
  unfold getPermissionsListS getPermissionsList
  rw [visitListS_eq]
  obtain ⟨st, hst⟩ := getPermissions_total reg s
  rw [hst]
  rfl

/-- A `can` decision returns the engine state it started from: evaluation
writes neither registry. -/
theorem canS_eq (e : RBACEngine) (s : Subject) (p : String)
    (c : AuthorizationContext) : canS e s p c = (can e s p c, e) := by
  simp only [canS, can, getPermissionsListS_eq, mapGetS]
  by_cases hm : (getPermissionsList e.roles s).any fun perm => Permission.matches perm p
  · simp only [hm]
    cases hp : mapGet e.policies p with
    | none => simp
    | some policy =>
      by_cases hb : policy ⟨s, c⟩ <;> simp [hb]
  · simp only [hm]
    simp

theorem matchLoop_nil_false : ∀ ps : List String, matchLoop ps [] false = starTail ps := by
  intro ps
  induction ps with
  | nil => rfl
  | cons p ps ih =>
    rw [matchLoop.eq_def, starTail.eq_def]
    by_cases h2 : p = "**"
    · simp [h2]
    · by_cases h1 : p = "*"
      · simp [h1, h2, ih]
      · simp [h1, h2]

theorem matchLoop_eq_specAmended :
    ∀ (ps qs : List String), matchLoop ps qs (qs.length == ps.length) = specAmended ps qs := by
  intro ps
  induction ps with
  | nil =>
    intro qs
    rw [matchLoop.eq_def, specAmended.eq_def]
    cases qs <;> rfl
  | cons p ps ih =>
    intro qs
    rw [matchLoop.eq_def, specAmended.eq_def]
    by_cases h2 : p = "**"
    · simp [h2]
    · by_cases h1 : p = "*"
      · simp only [h1, h2, if_false, if_true]
        cases qs with
        | nil =>
          show matchLoop ps [] ((0 : Nat) == ps.length + 1) = starTail ps
          have hbeq : ((0 : Nat) == ps.length + 1) = false := by
            simp
          rw [hbeq, matchLoop_nil_false]
        | cons q qs' =>
          show matchLoop ps qs' ((qs'.length + 1 : Nat) == ps.length + 1) = specAmended ps qs'
          have hbeq : ((qs'.length + 1 : Nat) == ps.length + 1) = (qs'.length == ps.length) := by
            simp [Nat.succ_inj]
          rw [hbeq, ih qs']
      · simp only [h1, h2, if_false]
        cases qs with
        | nil => rfl
        | cons q qs' =>
          by_cases hq : q = ""
          · simp [hq]
          · by_cases hpq : p = q
            · simp only [hq, hpq, if_false, if_true, ne_eq, not_true_eq_false]
              show matchLoop ps qs' ((qs'.length + 1 : Nat) == ps.length + 1) = specAmended ps qs'
              have hbeq : ((qs'.length + 1 : Nat) == ps.length + 1) =
                  (qs'.length == ps.length) := by
                simp [Nat.succ_inj]
              rw [hbeq, ih qs']
            · simp [hq, hpq]

/-- The matcher, characterized: raw equality, or the amended segment
grammar over the colon-split segment lists. -/
theorem matches_iff_amended (P Q : String) :
    Permission.matches P Q = true ↔
      P = Q ∨ specAmended (splitColon P) (splitColon Q) = true := by
  unfold Permission.matches
  by_cases hPQ : P = Q
  · simp [hPQ]
  · simp only [hPQ, if_false, false_or]
    rw [matchLoop_eq_specAmended]

/-! ## Registration frame lemmas (`Map.set`) -/

theorem mapGet_mapSet_self {α : Type} (m : List (String × α)) (k : String) (v : α) :
    mapGet (mapSet m k v) k = some v := by
  induction m with
  | nil => simp [mapSet, mapGet]
  | cons kv rest ih =>
    obtain ⟨k', v'⟩ := kv
    rw [mapSet]
    by_cases h : k' = k
    · simp [h, mapGet]
    · simp [h, mapGet, ih]

theorem mapGet_mapSet_other {α : Type} (m : List (String × α)) (k k' : String)
    (v : α) (h : k' ≠ k) : mapGet (mapSet m k v) k' = mapGet m k' := by
  have hk : ¬k = k' := fun hh => h hh.symm
  induction m with
  | nil => simp [mapSet, mapGet, hk]
  | cons kv rest ih =>
    obtain ⟨a, b⟩ := kv
    rw [mapSet]
    by_cases ha : a = k
    · subst ha
      rw [if_pos rfl, mapGet, mapGet, if_neg hk, if_neg hk]
    · rw [if_neg ha, mapGet, mapGet]
      by_cases hak : a = k'
      · rw [if_pos hak, if_pos hak]
      · rw [if_neg hak, if_neg hak, ih]

/-! ## Claims -/

/-- C1: for every subject, requested permission string, and context,
`can(subject, permission, context)` is a three-stage decision: if no pattern
in the effective permission set (roles resolved via inheritance, unioned
with `subject.permissions`) matches the requested permission, it returns
`{allowed: false, reason: "Permission not found in subject
roles/permissions", permission}` — and the policy registry is then
irrelevant, so a predicate registered for a permission the subject does not
hold is never invoked; if a pattern matches and no policy predicate is
registered under the exact requested permission string, it returns
`{allowed: true, permission}` with no reason; if a predicate is registered,
`allowed` equals the predicate's boolean result, with reason "Access denied
by policy" exactly when the result is false. -/
theorem C1_can_three_stage_decision :
    ∀ (e : RBACEngine) (s : Subject) (p : String) (c : AuthorizationContext),
      ((¬ ∃ q ∈ getPermissionsList e.roles s, Permission.matches q p = true) →
        can e s p c =
          { allowed := false,
            reason := some "Permission not found in subject roles/permissions",
            permission := p } ∧
        ∀ pol : List (String × PolicyFn),
          can { roles := e.roles, policies := pol } s p c = can e s p c) ∧
      ((∃ q ∈ getPermissionsList e.roles s, Permission.matches q p = true) →
        (mapGet e.policies p = none →
          can e s p c = { allowed := true, reason := none, permission := p }) ∧
        (∀ f, mapGet e.policies p = some f →
          can e s p c =
            if f ⟨s, c⟩ then { allowed := true, reason := none, permission := p }
            else { allowed := false, reason := some "Access denied by policy",
                   permission := p })) := by
  intro e s p c
  constructor
  · intro hno
    have hany : ((getPermissionsList e.roles s).any fun q => Permission.matches q p) = false := by
      rw [← Bool.not_eq_true, List.any_eq_true]
      simpa using hno
    constructor
    · simp only [can, hany]
      rfl
    · intro pol
      simp only [can, hany]
      rfl
  · intro hyes
    have hany : ((getPermissionsList e.roles s).any fun q => Permission.matches q p) = true := by
      rw [List.any_eq_true]
      simpa using hyes
    constructor
    · intro hnone
      simp only [can, hany, hnone]
      rfl
    · intro f hf
      simp only [can, hany, hf]
      by_cases hb : f ⟨s, c⟩ <;> simp [hb, deniedReason]

/-- C2 (counterexample): the claimed matcher characterization — in which an
empty trailing/inner segment is compared like any other literal segment —
declares `match(":*", ":x")` true (the empty segments agree, `*` consumes
`"x"`, segment counts agree), but the code rejects it: `if
(!permissionPart)` treats an empty permission segment as missing, so reading
a falsy (empty) permission segment fails any literal comparison. -/
theorem C2_counterexample_empty_segment :
    specClaimed (splitColon ":*") (splitColon ":x") = true ∧
      Permission.matches ":*" ":x" = false := by
  constructor
  · rfl
  · rfl

/-- C2 (amended): `match(P, Q)` is true iff `P = Q` as raw strings, or the
colon-segment scan succeeds, where `**` succeeds immediately (even past the
end of the permission, reached through `*` segments), `*` consumes the
segment at its position if one remains — empty or not — and otherwise just
continues, a literal pattern segment requires a non-empty, equal permission
segment (so an empty permission segment fails every literal comparison,
including against an empty pattern segment), and — when no `**` is
reached — P and Q must have exactly the same number of segments; the
comparison is case-sensitive and a bare `**` pattern matches everything. -/
theorem C2_amended_matcher_characterization :
    ∀ P Q : String, Permission.matches P Q = true ↔
      P = Q ∨ specAmended (splitColon P) (splitColon Q) = true :=
  matches_iff_amended

/-- C4 (code bug): `match` is meant to fall back to splitting on `'.'` when
the pattern uses the dot-delimited scheme (`pattern.split(':') ||
pattern.split('.')`, and the test suite has a "dot notation" section), but
`split` always returns a truthy array, so the fallback never executes: a
dot-delimited wildcard pattern is treated as one single colon-segment and
matches nothing except by raw string equality.  Equal dot-delimited strings
still match, and the same wildcards work under colons. -/
theorem C4_dot_delimiter_dead_code :
    Permission.matches "user.*" "user.read" = false ∧
      Permission.matches "user.**" "user.read.all" = false ∧
      Permission.matches "user.read" "user.read" = true ∧
      Permission.matches "user:*" "user:read" = true ∧
      Permission.matches "user:**" "user:read:all" = true := by
  refine ⟨rfl, rfl, ?_, ?_, rfl⟩ <;> decide

/-- C5 (counterexample): the claim says a `*` pattern segment matches only a
non-empty permission segment, so `match("user:*", "user:")` — whose segment
1 is the empty string, the strings not being raw-equal — must fail; the
code's `*` branch is a bare `continue` that never inspects the permission
segment, so the match succeeds. -/
theorem C5_counterexample_star_empty_segment :
    Permission.matches "user:*" "user:" = true ∧
      "user:*" ≠ "user:" ∧ splitColon "user:" = ["user", ""] := by
  refine ⟨rfl, ?_, rfl⟩
  decide

/-- C5 (amended): a `*` pattern segment accepts whatever stands at its
position — a non-empty segment, the empty segment, or nothing at all — and
comparison continues at the next index (overall segment-count equality is
still enforced at the end when no `**` is reached): in the loop, the `*`
step is insensitive to the permission segment, and concretely `"user:*"`
matches `"user:"` and `"user:x"` but not `"user"`. -/
theorem C5_amended_star_matches_any_segment :
    (∀ (ps qs : List String) (lenEq : Bool) (q : String),
      matchLoop ("*" :: ps) (q :: qs) lenEq = matchLoop ps qs lenEq) ∧
    (∀ (ps : List String) (lenEq : Bool),
      matchLoop ("*" :: ps) [] lenEq = matchLoop ps [] lenEq) ∧
    Permission.matches "user:*" "user:" = true ∧
    Permission.matches "user:*" "user:x" = true ∧
    Permission.matches "user:*" "user" = false := by
  refine ⟨?_, ?_, rfl, ?_, ?_⟩
  · intro ps qs lenEq q
    have hne : ¬(("*" : String) = "**") := by decide
    simp [matchLoop, hne]
  · intro ps lenEq
    have hne : ¬(("*" : String) = "**") := by decide
    simp [matchLoop, hne]
  · decide
  · decide

/-- A reachable registered role can only be reached from a registered start
(or from itself). -/
theorem Reach_start_isSome {reg : Registry} {n m : String} (h : Reach reg n m) :
    ∀ {ρ : Role}, mapGet reg m = some ρ → (mapGet reg n).isSome = true := by
  induction h with
  | refl =>
    intro ρ hget
    rw [hget]
    rfl
  | @tail b' c' r' hpre hget hmem ih =>
    intro ρ _
    exact ih hget

/-- C3: role resolution terminates for every registry — the fuel the
embedding computes is always sufficient, cycles and diamonds included — and
each role contributes its permission set exactly once (the accumulated set
is duplicate-free); for the cycle `roleA inherits roleB inherits roleA`,
resolving from `roleA` terminates and the final set contains both roles'
permissions. -/
theorem C3_resolution_terminates_cycle_safe :
    (∀ (reg : Registry) (s : Subject),
      (visitList reg (engineFuel reg s.roles) s.roles
        ([], addAll [] s.permissions)).isSome = true ∧
      (getPermissionsList reg s).Nodup) ∧
    "perm:a" ∈ getPermissionsList cycleRegistry cycleSubject ∧
    "perm:b" ∈ getPermissionsList cycleRegistry cycleSubject := by
  refine ⟨fun reg s => ⟨?_, getPermissionsList_nodup reg s⟩, ?_, ?_⟩
  · obtain ⟨st, hst⟩ := getPermissions_total reg s
    rw [hst]
    rfl
  · decide
  · decide

theorem mapGet_mapValues {α β : Type} (g : α → β) :
    ∀ (m : List (String × α)) (k : String),
      mapGet (m.map fun kv => (kv.1, g kv.2)) k = (mapGet m k).map g := by
  intro m
  induction m with
  | nil => intro k; rfl
  | cons kv rest ih =>
    intro k
    obtain ⟨a, b⟩ := kv
    rw [List.map_cons, mapGet, mapGet]
    by_cases h : a = k
    · rw [if_pos h, if_pos h, Option.map_some']
    · rw [if_neg h, if_neg h, ih]

theorem mapGet_filterInheritsReg (reg : Registry) (k : String) :
    mapGet (filterInheritsReg reg) k = (mapGet reg k).map fun r =>
      { r with inherits := r.inherits.filter fun n => (mapGet reg n).isSome } := by
  unfold filterInheritsReg
  exact mapGet_mapValues
    (fun r => { r with inherits := r.inherits.filter fun n => (mapGet reg n).isSome })
    reg k

/-- Pruning unregistered names from the `inherits` lists loses no reachable
registered role. -/
theorem Reach_filterInherits_of_reach {reg : Registry} {a m : String}
    (h : Reach reg a m) : ∀ {ρ : Role}, mapGet reg m = some ρ →
      Reach (filterInheritsReg reg) a m := by
  induction h with
  | refl =>
    intro ρ _
    exact Reach.refl _
  | @tail b' c' r' hpre hget hmem ih =>
    intro ρ hρ
    have hb : mapGet (filterInheritsReg reg) b' =
        some { r' with inherits := r'.inherits.filter fun n => (mapGet reg n).isSome } := by
      rw [mapGet_filterInheritsReg, hget, Option.map_some']
    have hc : c' ∈ ({ r' with
        inherits := r'.inherits.filter fun n => (mapGet reg n).isSome } : Role).inherits := by
      show c' ∈ r'.inherits.filter fun n => (mapGet reg n).isSome
      rw [List.mem_filter]
      exact ⟨hmem, by rw [hρ]; rfl⟩
    exact Reach.tail (ih hget) hb hc

/-- Pruning unregistered names from the `inherits` lists adds no
reachability either. -/
theorem Reach_of_filterInherits {reg : Registry} {a m : String}
    (h : Reach (filterInheritsReg reg) a m) : Reach reg a m := by
  induction h with
  | refl => exact Reach.refl _
  | @tail b' c' r' hpre hget hmem ih =>
    rw [mapGet_filterInheritsReg] at hget
    cases hg : mapGet reg b' with
    | none =>
      rw [hg] at hget
      cases hget
    | some r0 =>
      rw [hg, Option.map_some'] at hget
      cases hget
      rw [List.mem_filter] at hmem
      exact Reach.tail ih hg hmem.1

/-- The effective permission set is unchanged when every unregistered name
is removed from every role's `inherits` list. -/
theorem getPermissionsList_filterInherits (reg : Registry) (s : Subject) (x : String) :
    x ∈ getPermissionsList reg s ↔ x ∈ getPermissionsList (filterInheritsReg reg) s := by
  rw [getPermissionsList_mem, getPermissionsList_mem]
  constructor
  · rintro (hx | ⟨m, ρ, ⟨n, hn, hreach⟩, hget, hx⟩)
    · exact Or.inl hx
    · refine Or.inr ⟨m,
        { ρ with inherits := ρ.inherits.filter fun n => (mapGet reg n).isSome },
        ⟨n, hn, Reach_filterInherits_of_reach hreach hget⟩, ?_, hx⟩
      rw [mapGet_filterInheritsReg, hget, Option.map_some']
  · rintro (hx | ⟨m, ρ', ⟨n, hn, hreach⟩, hget, hx⟩)
    · exact Or.inl hx
    · rw [mapGet_filterInheritsReg] at hget
      cases hg : mapGet reg m with
      | none =>
        rw [hg] at hget
        cases hget
      | some ρ =>
        rw [hg, Option.map_some'] at hget
        cases hget
        exact Or.inr ⟨m, ρ, ⟨n, hn, Reach_of_filterInherits hreach⟩, hg, hx⟩

/-- C6: role names that are not registered — whether they appear in
`subject.roles` or inside a role's `inherits` list — are silently skipped
during resolution: they contribute no permissions, raise no error, and do
not prevent the rest of the resolution.  Formally: the effective permission
set is unchanged when unregistered names are filtered out of
`subject.roles`, and unchanged when unregistered names are filtered out of
every role's `inherits` list (so an unknown parent neither contributes nor
blocks the entries after it — witnessed concretely by `top` inheriting the
unregistered `ghost` before `bottom`, whose permission is still resolved);
a subject whose roles are all unknown gets exactly its direct permissions,
and a `can` call referencing only unknown roles (with no direct
permissions) completes normally with the not-found denial rather than an
error. -/
theorem C6_unknown_roles_silently_skipped :
    (∀ (reg : Registry) (s : Subject),
      (∀ x, x ∈ getPermissionsList reg s ↔
        x ∈ getPermissionsList reg
          { s with roles := s.roles.filter fun n => (mapGet reg n).isSome }) ∧
      (∀ x, x ∈ getPermissionsList reg s ↔
        x ∈ getPermissionsList (filterInheritsReg reg) s) ∧
      ((∀ n ∈ s.roles, mapGet reg n = none) →
        (∀ x, x ∈ getPermissionsList reg s ↔ x ∈ s.permissions) ∧
        ∀ (pol : List (String × PolicyFn)) (p : String) (c : AuthorizationContext),
          s.permissions = [] →
          can { roles := reg, policies := pol } s p c =
            { allowed := false,
              reason := some "Permission not found in subject roles/permissions",
              permission := p })) ∧
    mapGet ghostInheritsRegistry "ghost" = none ∧
    "b:p" ∈ getPermissionsList ghostInheritsRegistry ghostInheritsSubject ∧
    "t:p" ∈ getPermissionsList ghostInheritsRegistry ghostInheritsSubject := by
  refine ⟨?_, by decide, by decide, by decide⟩
  intro reg s
  refine ⟨?_, getPermissionsList_filterInherits reg s, ?_⟩
  · intro x
    rw [getPermissionsList_mem, getPermissionsList_mem]
    constructor
    · rintro (hx | ⟨m, ρ, ⟨n, hn, hreach⟩, hget, hx⟩)
      · exact Or.inl hx
      · refine Or.inr ⟨m, ρ, ⟨n, ?_, hreach⟩, hget, hx⟩
        simp only [List.mem_filter]
        exact ⟨hn, Reach_start_isSome hreach hget⟩
    · rintro (hx | ⟨m, ρ, ⟨n, hn, hreach⟩, hget, hx⟩)
      · exact Or.inl hx
      · simp only [List.mem_filter] at hn
        exact Or.inr ⟨m, ρ, ⟨n, hn.1, hreach⟩, hget, hx⟩
  · intro hnone
    have hmem : ∀ x, x ∈ getPermissionsList reg s ↔ x ∈ s.permissions := by
      intro x
      rw [getPermissionsList_mem]
      constructor
      · rintro (hx | ⟨m, ρ, ⟨n, hn, hreach⟩, hget, hx⟩)
        · exact hx
        · have := Reach_start_isSome hreach hget
          rw [hnone n hn] at this
          cases this
      · exact Or.inl
    refine ⟨hmem, ?_⟩
    intro pol p c hempty
    have hany : ((getPermissionsList reg s).any fun q => Permission.matches q p) = false := by
      rw [← Bool.not_eq_true, List.any_eq_true]
      rintro ⟨q, hq, _⟩
      rw [hmem q, hempty] at hq
      cases hq
    simp only [can, hany]
    rfl

theorem C6_witness :
    ("a:b" ∈ getPermissionsList ghostRegistry ghostSubject ↔
      "a:b" ∈ ghostSubject.permissions) ∧
    can { roles := ghostRegistry, policies := [] } ghostSubject "a:b" [] =
      { allowed := false,
        reason := some "Permission not found in subject roles/permissions",
        permission := "a:b" } := by
  have h := (C6_unknown_roles_silently_skipped.1 ghostRegistry ghostSubject).2.2 (by decide)
  exact ⟨h.1 "a:b", h.2 [] "a:b" [] rfl⟩

/-- C7: if the registered policy predicate throws (or its promise rejects)
during evaluation, `can` propagates that failure to its caller as a failure
of the whole call: it never converts a predicate error into an
`allowed=false` Authorization, so a predicate error is distinguishable from
a policy denial ("Access denied by policy" only arises from a predicate that
completed with `false`), and `can` either fully resolves to an Authorization
or fails outright — an error escapes only from a registered predicate on a
matched permission. -/
theorem C7_predicate_failure_propagates :
    ∀ (e : RBACEngineE) (s : Subject) (p : String) (c : AuthorizationContext),
      ((∃ q ∈ getPermissionsList e.roles s, Permission.matches q p = true) →
        ∀ f err, mapGet e.policies p = some f → f ⟨s, c⟩ = .error err →
          canE e s p c = .error err) ∧
      (∀ err, canE e s p c = .error err →
        (∃ q ∈ getPermissionsList e.roles s, Permission.matches q p = true) ∧
          ∃ f, mapGet e.policies p = some f ∧ f ⟨s, c⟩ = .error err) ∧
      (∀ a, canE e s p c = .ok a → a.reason = some "Access denied by policy" →
        ∃ f, mapGet e.policies p = some f ∧ f ⟨s, c⟩ = .ok false) ∧
      ((∃ a, canE e s p c = .ok a) ∨ ∃ err, canE e s p c = .error err) := by
  intro e s p c
  by_cases hany : ((getPermissionsList e.roles s).any fun q => Permission.matches q p) = true
  · refine ⟨?_, ?_, ?_, ?_⟩
    · intro _ f err hf herr
      simp [canE, hany, hf, herr]
    · intro err herr
      refine ⟨by rw [List.any_eq_true] at hany; simpa using hany, ?_⟩
      simp only [canE, hany, Bool.not_true, Bool.false_eq_true, if_false] at herr
      split at herr
      · rename_i f hf
        split at herr
        · rename_i e' hres
          cases herr
          exact ⟨f, hf, hres⟩
        · rename_i b hres
          split at herr <;> cases herr
      · cases herr
    · intro a ha hreason
      simp only [canE, hany, Bool.not_true, Bool.false_eq_true, if_false] at ha
      split at ha
      · rename_i f hf
        split at ha
        · rename_i e' hres
          cases ha
        · rename_i b hres
          cases b with
          | true =>
            simp only [if_true] at ha
            cases ha
            simp at hreason
          | false => exact ⟨f, hf, hres⟩
      · rename_i hf
        cases ha
        simp at hreason
    · cases h : canE e s p c with
      | ok a => exact Or.inl ⟨a, rfl⟩
      | error err => exact Or.inr ⟨err, rfl⟩
  · have hfalse : ((getPermissionsList e.roles s).any fun q =>
        Permission.matches q p) = false := by
      cases hb : ((getPermissionsList e.roles s).any fun q => Permission.matches q p) with
      | true => exact absurd hb hany
      | false => rfl
    have hdenial : canE e s p c =
        .ok { allowed := false, reason := some notFoundReason, permission := p } := by
      simp [canE, hfalse]
    refine ⟨?_, ?_, ?_, Or.inl ⟨_, hdenial⟩⟩
    · intro hex
      rw [List.any_eq_true] at hany
      exact absurd (by simpa using hex) hany
    · intro err herr
      rw [hdenial] at herr
      cases herr
    · intro a ha hreason
      rw [hdenial] at ha
      cases ha
      simp [notFoundReason] at hreason

theorem C7_witness : canE w7Engine w7Subject "post:edit" [] = .error "boom" :=
  (C7_predicate_failure_propagates w7Engine w7Subject "post:edit" []).1
    ⟨"post:edit", by decide, by decide⟩ failingPolicy "boom" rfl rfl

/-- C8: the canonical resolver (`getPermissions`, visited-set DFS unioning
permissions during the walk) and the earlier alternate resolver
(`resolvePermissions`/`resolveRoles`, which collects the resolved roles,
sorts them by `level` descending, and then unions) compute the same
effective permission set for every registry and subject, and consequently
the two engine versions return identical `can` decisions. -/
theorem C8_resolvers_equivalent :
    (∀ (reg : Registry) (s : Subject) (x : String),
      x ∈ resolvePermissionsList reg s ↔ x ∈ getPermissionsList reg s) ∧
    ∀ (e : RBACEngine) (s : Subject) (p : String) (c : AuthorizationContext),
      canAlt e s p c = can e s p c :=
  ⟨resolvePermissionsList_mem, canAlt_eq_can⟩

/-- C9: evaluating `can` mutates nothing — with the registry state threaded
through every access, a decision returns the engine unchanged (subjects are
plain values in the embedding and are never written) — and only `addRole`
and `addPolicy` write to the registries, each replacing exactly the entry
under the given name or permission key, leaving every other entry and the
other registry unchanged. -/
theorem C9_decision_writes_nothing :
    (∀ (e : RBACEngine) (s : Subject) (p : String) (c : AuthorizationContext),
      canS e s p c = (can e s p c, e)) ∧
    (∀ (e : RBACEngine) (r : Role) (k : String),
      mapGet (addRole e r).roles k =
        (if k = r.name then some r else mapGet e.roles k) ∧
      (addRole e r).policies = e.policies) ∧
    (∀ (e : RBACEngine) (p : String) (f : PolicyFn) (k : String),
      mapGet (addPolicy e p f).policies k =
        (if k = p then some f else mapGet e.policies k) ∧
      (addPolicy e p f).roles = e.roles) := by
  refine ⟨canS_eq, fun e r k => ⟨?_, rfl⟩, fun e p f k => ⟨?_, rfl⟩⟩
  · by_cases h : k = r.name
    · subst h
      rw [if_pos rfl]
      exact mapGet_mapSet_self _ _ _
    · rw [if_neg h]
      exact mapGet_mapSet_other _ _ _ _ h
  · by_cases h : k = p
    · subst h
      rw [if_pos rfl]
      exact mapGet_mapSet_self _ _ _
    · rw [if_neg h]
      exact mapGet_mapSet_other _ _ _ _ h

/-- C10 (counterexample): the result of `can` is not invariant under
permutation of `subject.roles` in general, because a registered policy
predicate receives the whole subject and may observe the order of the roles
list: with a predicate granting access exactly when `subject.roles` is the
list `["a", "b"]`, the permuted subject `["b", "a"]` resolves the same
effective permission set but is denied, so the `allowed` flag changes. -/
theorem C10_counterexample_policy_observes_order :
    orderSubject2.roles.Perm orderSubject1.roles ∧
      (can orderEngine orderSubject1 "p" []).allowed = true ∧
      (can orderEngine orderSubject2 "p" []).allowed = false ∧
      can orderEngine orderSubject1 "p" [] ≠ can orderEngine orderSubject2 "p" [] := by
  refine ⟨List.Perm.swap "a" "b" [], by decide, by decide, ?_⟩
  intro h
  have h1 : (can orderEngine orderSubject1 "p" []).allowed = true := by decide
  have h2 : (can orderEngine orderSubject2 "p" []).allowed = false := by decide
  rw [h, h2] at h1
  cases h1

/-- C10 (amended): the effective permission set is a set union accumulated
through a visited-set, so the `can` decision is invariant under permutation
and duplication of `subject.roles` and under duplication (or reordering) of
entries in any role's `inherits` list, provided the registered policy
predicate for the requested permission — which receives the subject as
written — returns the same result on both subjects; in particular the
invariance holds unconditionally whenever no policy is registered under the
requested permission, and the permission-resolution stage (the effective
set and the matched flag) is always invariant. -/
theorem C10_amended_decision_invariance :
    ∀ (e e' : RBACEngine) (s s' : Subject) (p : String) (c : AuthorizationContext),
      RegEquiv e.roles e'.roles →
      e.policies = e'.policies →
      (∀ n, n ∈ s.roles ↔ n ∈ s'.roles) →
      (∀ x, x ∈ s.permissions ↔ x ∈ s'.permissions) →
      (∀ f, mapGet e.policies p = some f → f ⟨s, c⟩ = f ⟨s', c⟩) →
      can e s p c = can e' s' p c := by
  intro e e' s s' p c hreg hpol hroles hperms hf
  simp only [can]
  rw [any_congr_mem (getPermissionsList_invariant hreg hroles hperms)
    (fun perm => Permission.matches perm p), ← hpol]
  by_cases hm : ((getPermissionsList e'.roles s').any fun perm =>
      Permission.matches perm p) = true
  · simp only [hm, Bool.not_true, Bool.false_eq_true, if_false]
    cases hp : mapGet e.policies p with
    | none => rfl
    | some f =>
      have heq := hf f hp
      exact if_congr (by rw [heq]) rfl rfl
  · have hm' : ((getPermissionsList e'.roles s').any fun perm =>
        Permission.matches perm p) = false := by
      cases hb : ((getPermissionsList e'.roles s').any fun perm =>
          Permission.matches perm p) with
      | true => exact absurd hb hm
      | false => rfl
    simp only [hm', Bool.not_false, if_true]

theorem C10_witness :
    can { roles := dupRegistry1, policies := [] } dupSubject1 "p" [] =
      can { roles := dupRegistry2, policies := [] } dupSubject2 "p" [] := by
  apply C10_amended_decision_invariance
  · intro k
    by_cases hk : k = "a"
    · subst hk
      refine Or.inr ⟨_, _, rfl, rfl, ?_, ?_⟩
      · intro m
        simp [dupRegistry1, dupRegistry2]
      · intro x
        exact Iff.rfl
    · have hka : ¬("a" = k) := fun h => hk h.symm
      refine Or.inl ⟨?_, ?_⟩ <;> simp [dupRegistry1, dupRegistry2, mapGet, hka]
  · rfl
  · intro n
    simp [dupSubject1, dupSubject2]
  · intro x
    exact Iff.rfl
  · intro f hfget
    cases hfget

theorem C1_witness :
    can w1Engine w1Subject "post:edit" [("authorId", "u1")] =
      { allowed := true, reason := none, permission := "post:edit" } ∧
    can w1Engine w1Subject "post:edit" [("authorId", "u2")] =
      { allowed := false, reason := some "Access denied by policy",
        permission := "post:edit" } ∧
    can w1Engine w1Subject "nope" [] =
      { allowed := false,
        reason := some "Permission not found in subject roles/permissions",
        permission := "nope" } ∧
    can { roles := w1Engine.roles, policies := [] } w1Subject "nope" [] =
      can w1Engine w1Subject "nope" [] ∧
    can { roles := w1Engine.roles, policies := [] } w1Subject "post:edit" [] =
      { allowed := true, reason := none, permission := "post:edit" } := by
  have hmatch : ∃ q ∈ getPermissionsList w1Engine.roles w1Subject,
      Permission.matches q "post:edit" = true := ⟨"post:edit", by decide, by decide⟩
  have hnomatch : ¬∃ q ∈ getPermissionsList w1Engine.roles w1Subject,
      Permission.matches q "nope" = true := by decide
  have hpol : mapGet w1Engine.policies "post:edit" = some w1Policy := rfl
  refine ⟨?_, ?_, ?_, ?_⟩
  · rw [((C1_can_three_stage_decision w1Engine w1Subject "post:edit"
      [("authorId", "u1")]).2 hmatch).2 w1Policy hpol]
    decide
  · rw [((C1_can_three_stage_decision w1Engine w1Subject "post:edit"
      [("authorId", "u2")]).2 hmatch).2 w1Policy hpol]
    decide
  · exact ((C1_can_three_stage_decision w1Engine w1Subject "nope" []).1 hnomatch).1
  · refine ⟨((C1_can_three_stage_decision w1Engine w1Subject "nope" []).1 hnomatch).2 [], ?_⟩
    exact ((C1_can_three_stage_decision { roles := w1Engine.roles, policies := [] }
      w1Subject "post:edit" []).2 hmatch).1 rfl

end UniRBAC
